import Mathlib

/-!
Shallow embedding of `src/dijkstra.py` (shaxbee/py-computer-science).

Node identifiers are `Nat`.  Costs live in an arbitrary linearly ordered
additive commutative monoid `R`: the Python reference uses floats, but the
algorithms read costs only through `0`, `+`, `<` and `≤`, which is exactly
what the specification's "totally-ordered, additive numeric type" demands;
concrete runs instantiate `R := ℤ` so that every evaluation is
kernel-decidable.  Python dicts are modelled as
insertion-ordered association lists; `heapdict` (the priority frontier) is a
dict from node to priority whose `popitem` removes the entry with the least
priority — assignment to an existing key overwrites its priority in place
(a decrease-key structure), which the model mirrors.  Ties between equal
priorities are broken by the smaller node identifier, a deterministic
refinement of heapdict's unspecified tie order; no theorem below depends on
a tie, and every concrete run used in a theorem has pairwise distinct
priorities at every pop.

The Python kernel is a generator: it yields a popped `(node, cost)` pair and
only expands that node's edges when the consumer asks for the next element.
`Gen` stores that suspension point in its `pending` field, so the interleaving
of table updates seen by `bidirect_dijkstra`'s lockstep loop is exactly the
generator interleaving.  Unbounded Python loops become fuel-indexed recursion;
`none` at the outer layer of a result means the fuel ran out (never the
program's own "no path" answer, which is the inner `none`).
-/

set_option synthInstance.maxSize 1024

namespace DijkstraSrc

abbrev Node := Nat

/-- Association-list lookup by node key: the value of the first matching
binding, as a Python dict lookup (dicts never hold a key twice). -/
def lookupA {β : Type} : List (Node × β) → Node → Option β
  | [], _ => none
  | (k, v) :: t, n => if k = n then some v else lookupA t n

/-- Association-list write `d[n] = v`: overwrite the first binding of the key
in place, or append a new binding at the end (dict insertion order). -/
def setA {β : Type} : List (Node × β) → Node → β → List (Node × β)
  | [], n, v => [(n, v)]
  | (k, w) :: t, n, v => if k = n then (k, v) :: t else (k, w) :: setA t n v

/-- Adjacency representation from `make_graph`: node to ordered list of
`(target, payload)` pairs. -/
abbrev Graph (α : Type) := List (Node × List (Node × α))

variable {R : Type} [LinearOrderedAddCommMonoid R] {α β : Type}

/-- `graph.get(left, [])`: outgoing edges of a node, empty when the key is
absent. -/
def graphGet (g : Graph α) (n : Node) : List (Node × α) := (lookupA g n).getD []

/-- `identity` from src/dijkstra.py: the default edge factory. -/
def identity (value : α) : α := value

/-- `graph[left].append((right, payload))` under `defaultdict(list)`. -/
def addEdge (g : Graph α) (l r : Node) (p : α) : Graph α :=
  setA g l (graphGet g l ++ [(r, p)])

/-- The edge-consuming loop of `make_graph`. -/
def mkGraphAux (f : β → α) : List (Node × Node × β) → Graph α → Graph α
  | [], acc => acc
  | (l, r, b) :: es, acc => mkGraphAux f es (addEdge acc l r (f b))

/-- `make_graph` from src/dijkstra.py: build the adjacency list from a flat
edge list, applying `edge_factory` to each edge's attributes. -/
def make_graph (source : List (Node × Node × β)) (edge_factory : β → α) : Graph α :=
  mkGraphAux edge_factory source []

/-- Inner loop of `reverse_graph`: flip every edge of one adjacency entry. -/
def revEdges (l : Node) : List (Node × α) → Graph α → Graph α
  | [], acc => acc
  | (r, p) :: es, acc => revEdges l es (addEdge acc r l p)

/-- Outer loop of `reverse_graph` over `source.items()`. -/
def revGraphAux : Graph α → Graph α → Graph α
  | [], acc => acc
  | (l, es) :: t, acc => revGraphAux t (revEdges l es acc)

/-- `reverse_graph` from src/dijkstra.py. -/
def reverse_graph (g : Graph α) : Graph α := revGraphAux g []

/-- A settled-table entry `(predecessor-or-None, best cost, payload-or-None)`. -/
abbrev PrevEntry (R α : Type) := Option Node × R × Option α

/-- The `previous` dictionary of the kernel. -/
abbrev Prev (R α : Type) := List (Node × PrevEntry R α)

/-- The heapdict frontier: node to current priority, one binding per node. -/
abbrev Queue (R : Type) := List (Node × R)

/-- Choose the entry with lower priority, preferring the smaller node id on a
tie (a deterministic refinement of heapdict's unspecified tie order). -/
def pickMin (a b : Node × R) : Node × R :=
  if b.2 < a.2 ∨ (b.2 = a.2 ∧ b.1 < a.1) then b else a

/-- Least-priority entry of a nonempty frontier. -/
def qminAux (x : Node × R) : Queue R → Node × R
  | [] => x
  | y :: t => pickMin x (qminAux y t)

/-- The entry `heapdict.popitem` would remove: least priority in the frontier. -/
def qmin : Queue R → Option (Node × R)
  | [] => none
  | x :: t => some (qminAux x t)

/-- Remove a node's binding from the frontier (the pop's deletion). -/
def qerase : Queue R → Node → Queue R
  | [], _ => []
  | (k, v) :: t, n => if k = n then t else (k, v) :: qerase t n

/-- One edge relaxation of the kernel body: compute `alt = cost + cost_fn p`
and, when the target is undiscovered or improved, write `queue[right] = alt`
and `previous[right] = (left, alt, payload)`. -/
def relax1 (cost_fn : α → R) (l : Node) (c : R) (st : Queue R × Prev R α)
    (r : Node) (p : α) : Queue R × Prev R α :=
  let alt := c + cost_fn p
  match lookupA st.2 r with
  | none => (setA st.1 r alt, setA st.2 r (some l, alt, some p))
  | some e0 =>
    if alt < e0.2.1 then (setA st.1 r alt, setA st.2 r (some l, alt, some p)) else st

/-- Relax a list of outgoing edges left to right. -/
def relaxList (cost_fn : α → R) (l : Node) (c : R) :
    List (Node × α) → Queue R × Prev R α → Queue R × Prev R α
  | [], st => st
  | (r, p) :: es, st => relaxList cost_fn l c es (relax1 cost_fn l c st r p)

/-- Expand a popped node: relax every edge of `graph.get(left, [])`. -/
def expand (g : Graph α) (cost_fn : α → R) (l : Node) (c : R)
    (q : Queue R) (pv : Prev R α) : Queue R × Prev R α :=
  relaxList cost_fn l c (graphGet g l) (q, pv)

/-- Suspended state of the `dijkstra_kernel` generator: the frontier, the
settled table, and the pair yielded last (whose expansion is still pending,
because the generator suspends right after `yield`). -/
structure Gen (R α : Type) where
  queue : Queue R
  prev : Prev R α
  pending : Option (Node × R)

/-- Generator creation: `queue = heapdict({start: 0.0})` and
`previous.update({start: (None, 0.0, None)})`. -/
def ginit (start : Node) (previous : Prev R α) : Gen R α :=
  ⟨[(start, 0)], setA previous start (none, 0, none), none⟩

/-- The frontier and table a resumed generator sees: the pending node's edges
get relaxed before the next pop. -/
def resolve (g : Graph α) (cost_fn : α → R) (st : Gen R α) : Queue R × Prev R α :=
  match st.pending with
  | none => (st.queue, st.prev)
  | some (l, c) => expand g cost_fn l c st.queue st.prev

/-- One resumption of the generator: finish the pending expansion, then pop
and yield the least-priority entry, or end the sequence on an empty frontier. -/
def kernelStep (g : Graph α) (cost_fn : α → R) (st : Gen R α) :
    Option ((Node × R) × Gen R α) :=
  let qp := resolve g cost_fn st
  match qmin qp.1 with
  | none => none
  | some (n, c) => some ((n, c), ⟨qerase qp.1 n, qp.2, some (n, c)⟩)

/-- The finite sequence of pairs the generator yields within `fuel`
resumptions. -/
def runTrace (g : Graph α) (cost_fn : α → R) : ℕ → Gen R α → List (Node × R)
  | 0, _ => []
  | fuel + 1, st =>
    match kernelStep g cost_fn st with
    | none => []
    | some (y, st1) => y :: runTrace g cost_fn fuel st1

/-- `dijkstra_kernel` from src/dijkstra.py, as the list of `(node, cost)`
pairs it yields (fuel bounds the number of resumptions; the Python generator
is unbounded). -/
def dijkstra_kernel (graph : Graph α) (start : Node) (previous : Prev R α)
    (cost_fn : α → R) (fuel : ℕ) : List (Node × R) :=
  runTrace graph cost_fn fuel (ginit start previous)

/-- `backtrack` from src/dijkstra.py: follow `previous[left]` to the sentinel,
yielding one `(predecessor, successor, payload)` triple per hop, newest hop
first; the sentinel hop is not yielded.  `none` models a missing key
(Python's KeyError) or exhausted fuel (a chain that never reaches the
sentinel loops forever in Python). -/
def backtrack (previous : Prev R α) : ℕ → Node → Option (List (Node × Node × Option α))
  | 0, _ => none
  | fuel + 1, n =>
    match lookupA previous n with
    | none => none
    | some (none, _, _) => some []
    | some (some m, _, pl) => (backtrack previous fuel m).map (fun hs => (m, n, pl) :: hs)

/-- The `for id, cost in dijkstra_kernel(...)` loop of `dijkstra`: drain the
kernel until the goal is yielded (returning its cost and the table at the
break) or the kernel is exhausted (inner `none`, the explicit no-path
result). -/
def dijkstraLoop (g : Graph α) (cost_fn : α → R) (goal : Node) :
    ℕ → Gen R α → Option (Option (R × Prev R α))
  | 0, _ => none
  | fuel + 1, st =>
    match kernelStep g cost_fn st with
    | none => some none
    | some ((n, c), st1) =>
      if n = goal then some (some (c, st1.prev))
      else dijkstraLoop g cost_fn goal fuel st1

/-- `dijkstra` from src/dijkstra.py.  Result: outer `none` = fuel exhausted
(no analogue in Python, whose loop is unbounded); `some none` = explicit
no-path result; `some (some (cost, edges))` with the edges reversed into
source-to-target order. -/
def dijkstra (graph : Graph α) (start goal : Node) (cost_fn : α → R)
    (fuel : ℕ) : Option (Option (R × List (Node × Node × Option α))) :=
  match dijkstraLoop graph cost_fn goal fuel (ginit start []) with
  | none => none
  | some none => some none
  | some (some (c, pv)) =>
    match backtrack pv fuel goal with
    | none => none
    | some hops => some (some (c, hops.reverse))

/-- `previous[id][1]`: the recorded cost of a table entry (only ever read for
ids that hold an entry). -/
def pcost (pv : Prev R α) (n : Node) : R :=
  match lookupA pv n with
  | some e0 => e0.2.1
  | none => 0

/-- `check_intersects` from `bidirect_dijkstra`: when the just-popped node has
an entry in the opposite table and the summed table costs beat the incumbent
best, return the improvement; otherwise `(None, inf)` (here `(none, none)`,
with `none` as infinity). -/
def check_intersects (fpv bpv opp : Prev R α) (best : Option R) (n : Node) :
    Option Node × Option R :=
  if (lookupA opp n).isSome then
    let alt := pcost fpv n + pcost bpv n
    match best with
    | none => (some n, some alt)
    | some b => if alt < b then (some n, some alt) else (none, none)
  else (none, none)

/-- Comparison `a <= b` with `none` as float infinity. -/
def cleb : Option R → Option R → Bool
  | _, none => true
  | none, some _ => false
  | some a, some b => a ≤ b

/-- Python `min(v0, v1, v2, key=itemgetter(1))`: the earliest argument whose
key is minimal. -/
def min3 (v0 v1 v2 : Option Node × Option R) : Option Node × Option R :=
  if cleb v0.2 v1.2 && cleb v0.2 v2.2 then v0
  else if cleb v1.2 v2.2 then v1 else v2

/-- Path reconstruction at the end of `bidirect_dijkstra`: reversed forward
backtrack, then the backward backtrack with each hop flipped back to the
original orientation.  `(None, inf)` as best means the Python function falls
through and returns `None` (inner `none` here). -/
def biFinish (fpv bpv : Prev R α) (inter : Option Node) (cost : Option R)
    (btfuel : ℕ) : Option (Option (R × List (Node × Node × Option α))) :=
  match inter, cost with
  | some x, some cst =>
    match backtrack fpv btfuel x, backtrack bpv btfuel x with
    | some fh, some bh =>
      some (some (cst, fh.reverse ++ bh.map (fun t => (t.2.1, t.1, t.2.2))))
    | _, _ => none
  | _, _ => some none

/-- The `for fwd, bwd in zip(fwd_kernel, bwd_kernel)` loop of
`bidirect_dijkstra`: pull the forward kernel, then the backward kernel
(stopping the round if either is exhausted, with the side effects of the
pulls already performed), update the best meeting candidate through `min3`,
and stop as soon as `cost < fwd[1] + bwd[1]`. -/
def biLoop (g rg : Graph α) (cost_fn : α → R) (btfuel : ℕ) :
    ℕ → Gen R α → Gen R α → Option Node → Option R →
    Option (Option (R × List (Node × Node × Option α)))
  | 0, _, _, _, _ => none
  | fuel + 1, fgen, bgen, inter, cost =>
    match kernelStep g cost_fn fgen with
    | none => biFinish (resolve g cost_fn fgen).2 bgen.prev inter cost btfuel
    | some ((nf, cf0), fgen1) =>
      match kernelStep rg cost_fn bgen with
      | none => biFinish fgen1.prev (resolve rg cost_fn bgen).2 inter cost btfuel
      | some ((nb, cb0), bgen1) =>
        let r := min3 (inter, cost)
          (check_intersects fgen1.prev bgen1.prev bgen1.prev cost nf)
          (check_intersects fgen1.prev bgen1.prev fgen1.prev cost nb)
        match r.2 with
        | some c2 =>
          if c2 < cf0 + cb0 then biFinish fgen1.prev bgen1.prev r.1 r.2 btfuel
          else biLoop g rg cost_fn btfuel fuel fgen1 bgen1 r.1 r.2
        | none => biLoop g rg cost_fn btfuel fuel fgen1 bgen1 r.1 r.2

/-- `bidirect_dijkstra` from src/dijkstra.py (the `bwd_graph` parameter of the
Python signature is dead: the code always searches `reverse_graph(graph)`
backward from the goal). -/
def bidirect_dijkstra (graph : Graph α) (start goal : Node) (cost_fn : α → R)
    (fuel : ℕ) : Option (Option (R × List (Node × Node × Option α))) :=
  biLoop graph (reverse_graph graph) cost_fn fuel fuel
    (ginit start []) (ginit goal []) none none

/-- Membership of a directed edge in the adjacency structure, as the kernel
consults it (`graph.get(left, [])`). -/
def EdgeIn (g : Graph α) (l r : Node) (p : α) : Prop := (r, p) ∈ graphGet g l

/-- A walk (not necessarily simple) from `a` to `b` through edges of `g`,
recorded as the list of `(from, to, payload)` hops in travel order. -/
inductive Walk (g : Graph α) : Node → Node → List (Node × Node × α) → Prop
  | nil (n : Node) : Walk g n n []
  | cons {a b c : Node} {p : α} {w : List (Node × Node × α)} :
      EdgeIn g a b p → Walk g b c w → Walk g a c ((a, b, p) :: w)

/-- Total cost of a walk under a cost function. -/
def wcost (cost_fn : α → R) (w : List (Node × Node × α)) : R :=
  (w.map (fun t => cost_fn t.2.2)).sum

/-- There is some walk from `s` to `e` in `g`. -/
def Reachable (g : Graph α) (s e : Node) : Prop := ∃ w, Walk g s e w

/-- Every payload stored in the graph has non-negative cost (the CostFn
contract of the specification). -/
def NonnegCost (g : Graph α) (cost_fn : α → R) : Prop :=
  ∀ le ∈ g, ∀ rp ∈ le.2, 0 ≤ cost_fn rp.2

/-- Number of edge records in the adjacency structure. -/
def totalEdges : Graph α → ℕ
  | [] => 0
  | le :: t => le.2.length + totalEdges t

/-- All edge-target nodes, with multiplicity. -/
def targets : Graph α → List Node
  | [] => []
  | le :: t => le.2.map Prod.fst ++ targets t

/-- Enough fuel for any run of the kernel, the search loops and the
backtracks on `g` under non-negative costs. -/
def dfuel (g : Graph α) : ℕ := totalEdges g + 2

/-- The directed edges of an adjacency structure, in entry order. -/
def edgeList : Graph α → List (Node × Node × α)
  | [] => []
  | (l, es) :: t => es.map (fun rp => (l, rp.1, rp.2)) ++ edgeList t

/-- The multiset of directed edges of an adjacency structure. -/
def edgeMS (g : Graph α) : Multiset (Node × Node × α) := (edgeList g : Multiset _)

end DijkstraSrc

namespace DijkstraSrc

variable {R : Type} [LinearOrderedAddCommMonoid R] {α β : Type}

theorem lookupA_setA (l : List (Node × β)) (n : Node) (v : β) (m : Node) :
    lookupA (setA l n v) m = if n = m then some v else lookupA l m := by
  induction l with
  | nil => by_cases h : n = m <;> simp [setA, lookupA, h]
  | cons hd t ih =>
    obtain ⟨k, w⟩ := hd
    by_cases hk : k = n
    · subst hk
      by_cases hm : k = m <;> simp [setA, lookupA, hm]
    · by_cases hm : k = m
      · have hnm : ¬ n = m := fun h => hk (hm.trans h.symm)
        subst hm
        simp [setA, hk, lookupA, hnm]
      · simp [setA, hk, lookupA, hm, ih]

theorem lookupA_setA_self (l : List (Node × β)) (n : Node) (v : β) :
    lookupA (setA l n v) n = some v := by
  simp [lookupA_setA]

theorem lookupA_setA_ne (l : List (Node × β)) (n : Node) (v : β) (m : Node)
    (h : ¬ n = m) : lookupA (setA l n v) m = lookupA l m := by
  simp [lookupA_setA, h]

theorem lookupA_isSome_iff (l : List (Node × β)) (m : Node) :
    (lookupA l m).isSome ↔ m ∈ l.map Prod.fst := by
  induction l with
  | nil => simp [lookupA]
  | cons hd t ih =>
    obtain ⟨k, w⟩ := hd
    by_cases hk : k = m
    · subst hk; simp [lookupA]
    · have hmk : ¬ m = k := fun h => hk h.symm
      simp [lookupA, hk, ih, hmk]

theorem keys_setA (l : List (Node × β)) (n : Node) (v : β) :
    (setA l n v).map Prod.fst =
      if (lookupA l n).isSome then l.map Prod.fst else l.map Prod.fst ++ [n] := by
  induction l with
  | nil => simp [setA, lookupA]
  | cons hd t ih =>
    obtain ⟨k, w⟩ := hd
    by_cases hk : k = n
    · subst hk; simp [setA, lookupA]
    · by_cases ht : (lookupA t n).isSome <;> simp [setA, lookupA, hk, ih, ht]

theorem mem_keys_setA (l : List (Node × β)) (n : Node) (v : β) (m : Node) :
    m ∈ (setA l n v).map Prod.fst ↔ m ∈ l.map Prod.fst ∨ m = n := by
  constructor
  · intro h
    by_cases hm : m = n
    · exact Or.inr hm
    · refine Or.inl ?_
      rw [← lookupA_isSome_iff] at h ⊢
      rwa [lookupA_setA_ne l n v m (fun hh => hm hh.symm)] at h
  · intro h
    rw [← lookupA_isSome_iff, lookupA_setA]
    rcases h with h | h
    · by_cases hm : n = m
      · simp [hm]
      · rw [← lookupA_isSome_iff] at h
        simp [hm, h]
    · simp [h.symm]

theorem keys_nodup_setA (l : List (Node × β)) (n : Node) (v : β)
    (h : (l.map Prod.fst).Nodup) : ((setA l n v).map Prod.fst).Nodup := by
  rw [keys_setA]
  by_cases hs : (lookupA l n).isSome
  · simpa [hs] using h
  · have hn : n ∉ l.map Prod.fst := by
      rw [← lookupA_isSome_iff]
      simp [hs]
    simp only [hs, if_neg, Bool.false_eq_true, not_false_iff]
    rw [List.nodup_append]
    refine ⟨h, List.nodup_singleton n, ?_⟩
    intro a ha hna
    simp only [List.mem_singleton] at hna
    exact hn (hna ▸ ha)

theorem mem_setA_of_ne (l : List (Node × β)) (n : Node) (v : β) {m : Node} {c : β}
    (h : (m, c) ∈ l) (hne : ¬ m = n) : (m, c) ∈ setA l n v := by
  induction l with
  | nil => simp at h
  | cons hd t ih =>
    obtain ⟨k, w⟩ := hd
    rcases (by simpa using h : (m = k ∧ c = w) ∨ (m, c) ∈ t) with h2 | h2
    · have hk : ¬ k = n := fun hh => hne (h2.1 ▸ hh)
      simp [setA, hk, h2.1, h2.2]
    · by_cases hk : k = n
      · subst hk; simp [setA, h2]
      · simp [setA, hk, ih h2]

theorem self_mem_setA (l : List (Node × β)) (n : Node) (v : β) :
    (n, v) ∈ setA l n v := by
  induction l with
  | nil => simp [setA]
  | cons hd t ih =>
    obtain ⟨k, w⟩ := hd
    by_cases hk : k = n
    · subst hk; simp [setA]
    · simp [setA, hk, ih]

theorem mem_setA_cases (l : List (Node × β)) (n : Node) (v : β) {m : Node} {c : β}
    (hnd : (l.map Prod.fst).Nodup)
    (h : (m, c) ∈ setA l n v) : (m = n ∧ c = v) ∨ ((m, c) ∈ l ∧ ¬ m = n) := by
  induction l with
  | nil =>
    rcases (by simpa [setA] using h) with ⟨h1, h2⟩
    exact Or.inl ⟨h1, h2⟩
  | cons hd t ih =>
    obtain ⟨k, w⟩ := hd
    simp only [List.map_cons, List.nodup_cons] at hnd
    by_cases hk : k = n
    · subst hk
      rcases (by simpa [setA] using h) with h2 | h2
      · exact Or.inl h2
      · have hm : ¬ m = k := by
          intro hh
          exact hnd.1 (hh ▸ (List.mem_map_of_mem Prod.fst h2))
        exact Or.inr ⟨by simp [h2], hm⟩
    · rcases (by simpa [setA, hk] using h) with h2 | h2
      · have hm : ¬ m = n := fun hh => hk ((h2.1.symm.trans hh) ▸ rfl)
        exact Or.inr ⟨by simp [h2.1, h2.2], hm⟩
      · rcases ih hnd.2 h2 with h3 | h3
        · exact Or.inl h3
        · exact Or.inr ⟨by simp [h3.1], h3.2⟩

end DijkstraSrc

namespace DijkstraSrc

variable {R : Type} [LinearOrderedAddCommMonoid R] {α β : Type}

theorem qerase_sublist (q : Queue R) (n : Node) : (qerase q n).Sublist q := by
  induction q with
  | nil => simp [qerase]
  | cons hd t ih =>
    obtain ⟨k, v⟩ := hd
    by_cases hk : k = n
    · simpa [qerase, hk] using List.sublist_cons_self (k, v) t
    · simpa [qerase, hk] using List.Sublist.cons₂ (k, v) ih

theorem mem_of_mem_qerase {q : Queue R} {n : Node} {x : Node × R}
    (h : x ∈ qerase q n) : x ∈ q :=
  (qerase_sublist q n).mem h

theorem keys_qerase_nodup {q : Queue R} (n : Node)
    (h : (q.map Prod.fst).Nodup) : ((qerase q n).map Prod.fst).Nodup :=
  ((qerase_sublist q n).map Prod.fst).nodup h

theorem mem_qerase_of_ne {q : Queue R} {n : Node} {m : Node} {c : R}
    (h : (m, c) ∈ q) (hne : ¬ m = n) : (m, c) ∈ qerase q n := by
  induction q with
  | nil => simp at h
  | cons hd t ih =>
    obtain ⟨k, v⟩ := hd
    rcases (by simpa using h : (m = k ∧ c = v) ∨ (m, c) ∈ t) with h2 | h2
    · have hk : ¬ k = n := fun hh => hne (h2.1 ▸ hh)
      simp [qerase, hk, h2.1, h2.2]
    · by_cases hk : k = n
      · simp [qerase, hk, h2]
      · simp [qerase, hk, ih h2]

theorem not_mem_keys_qerase {q : Queue R} {n : Node}
    (h : (q.map Prod.fst).Nodup) : n ∉ (qerase q n).map Prod.fst := by
  induction q with
  | nil => simp [qerase]
  | cons hd t ih =>
    obtain ⟨k, v⟩ := hd
    simp only [List.map_cons, List.nodup_cons] at h
    by_cases hk : k = n
    · subst hk
      simpa [qerase] using h.1
    · intro hmem
      rcases (by simpa [qerase, hk] using hmem : n = k ∨ n ∈ (qerase t n).map Prod.fst) with
        h2 | h2
      · exact hk h2.symm
      · exact ih h.2 h2

theorem pickMin_cases (a b : Node × R) : pickMin a b = a ∨ pickMin a b = b := by
  unfold pickMin
  by_cases h : b.2 < a.2 ∨ (b.2 = a.2 ∧ b.1 < a.1) <;> simp [h]

theorem pickMin_le_left (a b : Node × R) : (pickMin a b).2 ≤ a.2 := by
  unfold pickMin
  by_cases h : b.2 < a.2 ∨ (b.2 = a.2 ∧ b.1 < a.1)
  · rw [if_pos h]
    rcases h with h1 | h1
    · exact le_of_lt h1
    · exact le_of_eq h1.1
  · rw [if_neg h]

theorem pickMin_le_right (a b : Node × R) : (pickMin a b).2 ≤ b.2 := by
  unfold pickMin
  by_cases h : b.2 < a.2 ∨ (b.2 = a.2 ∧ b.1 < a.1)
  · rw [if_pos h]
  · rw [if_neg h]
    push_neg at h
    exact h.1

theorem qminAux_mem (x : Node × R) (t : Queue R) : qminAux x t ∈ x :: t := by
  induction t generalizing x with
  | nil => simp [qminAux]
  | cons y t2 ih =>
    rcases pickMin_cases x (qminAux y t2) with h | h
    · simp [qminAux, h]
    · have := ih y
      simp only [qminAux, h]
      exact List.mem_cons_of_mem x this

theorem qminAux_le (x : Node × R) (t : Queue R) :
    ∀ z ∈ x :: t, (qminAux x t).2 ≤ z.2 := by
  induction t generalizing x with
  | nil =>
    intro z hz
    rcases (by simpa using hz : z = x) with rfl
    simp [qminAux]
  | cons y t2 ih =>
    intro z hz
    rcases (by simpa using hz : z = x ∨ z = y ∨ z ∈ t2) with hzx | hz2
    · rw [hzx]
      simpa [qminAux] using pickMin_le_left x (qminAux y t2)
    · have h1 : (qminAux y t2).2 ≤ z.2 := by
        apply ih y
        simpa using hz2
      calc (qminAux x (y :: t2)).2 ≤ (qminAux y t2).2 := pickMin_le_right x (qminAux y t2)
        _ ≤ z.2 := h1

theorem qmin_eq_none_iff (q : Queue R) : qmin q = none ↔ q = [] := by
  cases q with
  | nil => simp [qmin]
  | cons x t => simp [qmin]

theorem qmin_mem {q : Queue R} {x : Node × R} (h : qmin q = some x) : x ∈ q := by
  cases q with
  | nil => simp [qmin] at h
  | cons y t =>
    have h2 : qminAux y t = x := by simpa [qmin] using h
    exact h2 ▸ qminAux_mem y t

theorem qmin_le {q : Queue R} {x : Node × R} (h : qmin q = some x) :
    ∀ y ∈ q, x.2 ≤ y.2 := by
  cases q with
  | nil => simp [qmin] at h
  | cons z t =>
    have h2 : qminAux z t = x := by simpa [qmin] using h
    exact h2 ▸ qminAux_le z t

end DijkstraSrc

namespace DijkstraSrc

variable {R : Type} [LinearOrderedAddCommMonoid R] {α β : Type}

theorem lookupA_mem {l : List (Node × β)} {n : Node} {v : β}
    (h : lookupA l n = some v) : (n, v) ∈ l := by
  induction l with
  | nil => simp [lookupA] at h
  | cons hd t ih =>
    obtain ⟨k, w⟩ := hd
    by_cases hk : k = n
    · subst hk
      have hwv : w = v := by simpa [lookupA] using h
      simp [hwv]
    · simp only [lookupA, hk, if_neg, not_false_iff] at h
      exact List.mem_cons_of_mem _ (ih h)

theorem nonneg_of_edge {g : Graph α} {cost_fn : α → R} (hnn : NonnegCost g cost_fn)
    {n r : Node} {p : α} (h : (r, p) ∈ graphGet g n) : 0 ≤ cost_fn p := by
  unfold graphGet at h
  cases hl : lookupA g n with
  | none => rw [hl] at h; simp at h
  | some es =>
    rw [hl] at h
    simp only [Option.getD_some] at h
    exact hnn (n, es) (lookupA_mem hl) (r, p) h

/-- The chain of predecessor hops recorded in a table from a node down to the
sentinel entry, newest hop first: the data `backtrack` walks. -/
inductive Hops (pv : Prev R α) : Node → List (Node × Node × Option α) → Prop
  | sent {n : Node} {c : R} {pl : Option α} :
      lookupA pv n = some (none, c, pl) → Hops pv n []
  | step {n m : Node} {c : R} {pl : Option α} {hs : List (Node × Node × Option α)} :
      lookupA pv n = some (some m, c, pl) → Hops pv m hs → Hops pv n ((m, n, pl) :: hs)

/-- C7: for every predecessor table in which following predecessors from
`node` reaches an entry whose predecessor is the `none` sentinel (the `Hops`
hypothesis records that chain), `backtrack` yields exactly one
`(predecessor, successor, payload)` triple per hop, newest hop first, and
does not yield the sentinel hop; payloads are returned as stored (the model
wraps stored payloads in `some`, mirroring Python values that may be `None`). -/
theorem backtrack_yields_hops {pv : Prev R α} {n : Node}
    {hs : List (Node × Node × Option α)} (h : Hops pv n hs) :
    ∀ fuel, hs.length < fuel → backtrack pv fuel n = some hs := by
  induction h with
  | sent hl =>
    intro fuel hf
    cases fuel with
    | zero => simp at hf
    | succ f => simp [backtrack, hl]
  | step hl hm ih =>
    intro fuel hf
    cases fuel with
    | zero => simp at hf
    | succ f =>
      have hrec := ih f (by simpa using Nat.lt_of_succ_lt_succ hf)
      simp [backtrack, hl, hrec]

/-- The specification's concrete backtrack table. -/
def tblC7 : Prev ℤ ℤ :=
  [(3, (some 2, 25, some 15)), (2, (some 1, 10, some 10)), (1, (none, 0, none))]

/-- C7 witness: `backtrack({3: (2, 25, 15), 2: (1, 10, 10), 1: (None, 0.0, None)}, 3)`
yields exactly `[(2, 3, 15), (1, 2, 10)]`. -/
theorem backtrack_yields_hops_witness :
    backtrack tblC7 3 3 = some [(2, 3, some 15), (1, 2, some 10)] :=
  backtrack_yields_hops
    (Hops.step (show lookupA tblC7 3 = some (some 2, 25, some 15) from by decide)
      (Hops.step (show lookupA tblC7 2 = some (some 1, 10, some 10) from by decide)
        (Hops.sent (show lookupA tblC7 1 = some (none, 0, none) from by decide))))
    3 (by decide)

/-- Flip a directed edge, keeping the payload. -/
def swapE (t : Node × Node × α) : Node × Node × α := (t.2.1, t.1, t.2.2)

theorem edgeList_addEdge_perm (g : Graph α) (l r : Node) (p : α) :
    (edgeList (addEdge g l r p)).Perm ((l, r, p) :: edgeList g) := by
  induction g with
  | nil =>
    simp [edgeList, addEdge, setA, graphGet, lookupA]
  | cons hd t ih =>
    obtain ⟨k, es⟩ := hd
    by_cases hk : k = l
    · subst hk
      simp only [addEdge, graphGet, lookupA, if_pos rfl, Option.getD_some, setA]
      simp only [edgeList, List.map_append, List.map_cons, List.map_nil, List.append_assoc]
      simpa using List.perm_middle
    · simp only [addEdge, graphGet, lookupA, if_neg hk, setA]
      have heq : setA t l ((lookupA t l).getD [] ++ [(r, p)]) = addEdge t l r p := rfl
      simp only [edgeList, heq]
      refine List.Perm.trans (List.Perm.append_left _ ih) ?_
      exact List.perm_middle

theorem edgeMS_addEdge (g : Graph α) (l r : Node) (p : α) :
    edgeMS (addEdge g l r p) = (l, r, p) ::ₘ edgeMS g := by
  unfold edgeMS
  rw [Multiset.cons_coe]
  exact Multiset.coe_eq_coe.mpr (edgeList_addEdge_perm g l r p)

theorem edgeMS_revEdges (l : Node) (es : List (Node × α)) (acc : Graph α) :
    edgeMS (revEdges l es acc) =
      ((es.map (fun rp => (rp.1, l, rp.2)) : List (Node × Node × α)) :
        Multiset (Node × Node × α)) + edgeMS acc := by
  induction es generalizing acc with
  | nil => simp [revEdges]
  | cons hd es2 ih =>
    obtain ⟨r, p⟩ := hd
    simp only [revEdges, ih (addEdge acc r l p), edgeMS_addEdge, List.map_cons]
    rw [← Multiset.cons_coe, Multiset.cons_add, Multiset.add_cons]

theorem edgeMS_cons (l : Node) (es : List (Node × α)) (t : Graph α) :
    edgeMS ((l, es) :: t) =
      ((es.map (fun rp => (l, rp.1, rp.2)) : List (Node × Node × α)) :
        Multiset (Node × Node × α)) + edgeMS t := by
  simp [edgeMS, edgeList]

theorem edgeMS_revGraphAux (g acc : Graph α) :
    edgeMS (revGraphAux g acc) = (edgeMS g).map swapE + edgeMS acc := by
  induction g generalizing acc with
  | nil => simp [revGraphAux, edgeMS, edgeList]
  | cons hd t ih =>
    obtain ⟨l, es⟩ := hd
    simp only [revGraphAux, ih (revEdges l es acc), edgeMS_revEdges, edgeMS_cons]
    rw [Multiset.map_add]
    have hmap : ((es.map (fun rp => (l, rp.1, rp.2)) : List (Node × Node × α)) :
        Multiset (Node × Node × α)).map swapE =
        ((es.map (fun rp => (rp.1, l, rp.2)) : List (Node × Node × α)) :
          Multiset (Node × Node × α)) := by
      simp only [Multiset.map_coe, List.map_map]
      congr 1
    rw [hmap]
    rw [← add_assoc, add_comm ((edgeMS t).map swapE), add_assoc]

theorem edgeMS_reverse_graph (g : Graph α) :
    edgeMS (reverse_graph g) = (edgeMS g).map swapE := by
  unfold reverse_graph
  rw [edgeMS_revGraphAux]
  simp [edgeMS, edgeList]

/-- C8: reversing a graph twice preserves the multiset of directed edges:
every edge `(from, target, payload)` of `g` appears in
`reverse_graph (reverse_graph g)` with the same direction and unchanged
payload, and no other edge appears. -/
theorem reverse_graph_roundtrip_edge_multiset (g : Graph α) :
    edgeMS (reverse_graph (reverse_graph g)) = edgeMS g := by
  rw [edgeMS_reverse_graph, edgeMS_reverse_graph, Multiset.map_map]
  have hid : swapE ∘ (swapE : Node × Node × α → Node × Node × α) = id := by
    funext t
    rfl
  rw [hid, Multiset.map_id]

end DijkstraSrc

namespace DijkstraSrc

variable {R : Type} [LinearOrderedAddCommMonoid R] {α β : Type}

theorem mkGraphAux_lookup_notin (f : β → α) (es : List (Node × Node × β))
    (acc : Graph α) (n : Node) (h : ∀ e ∈ es, ¬ e.1 = n) :
    lookupA (mkGraphAux f es acc) n = lookupA acc n := by
  induction es generalizing acc with
  | nil => rfl
  | cons e t ih =>
    obtain ⟨l, r, b⟩ := e
    have hl : ¬ l = n := h (l, r, b) (by simp)
    rw [show mkGraphAux f ((l, r, b) :: t) acc = mkGraphAux f t (addEdge acc l r (f b)) from rfl]
    rw [ih (addEdge acc l r (f b)) (fun e he => h e (List.mem_cons_of_mem _ he))]
    exact lookupA_setA_ne _ _ _ _ hl

/-- C9: `make_graph` is a total function of the edge list (it never raises,
in particular not on duplicate or self-loop edges), and a node that never
appears in the source position of an edge is absent from the keys of the
result; consulting the mapping for such a node gives the empty edge list
(`graph.get(node, [])`), not an error. -/
theorem make_graph_target_only_nodes_absent (source : List (Node × Node × β))
    (edge_factory : β → α) (n : Node) (h : ∀ e ∈ source, ¬ e.1 = n) :
    lookupA (make_graph source edge_factory) n = none ∧
      graphGet (make_graph source edge_factory) n = [] := by
  have h1 : lookupA (make_graph source edge_factory) n = lookupA ([] : Graph α) n :=
    mkGraphAux_lookup_notin edge_factory source [] n h
  refine ⟨h1, ?_⟩
  unfold graphGet
  rw [h1]
  rfl

/-- C9 witness: in an edge list with a duplicate edge and a self-loop, node 3
appears only as a target, so `make_graph` succeeds and leaves node 3 without
a key, and consulting it yields no outgoing edges. -/
theorem make_graph_target_only_nodes_absent_witness :
    lookupA (make_graph [(1, 2, (10 : ℤ)), (1, 2, 10), (2, 2, 5), (2, 3, 15)] identity) 3
        = none ∧
      graphGet (make_graph [(1, 2, (10 : ℤ)), (1, 2, 10), (2, 2, 5), (2, 3, 15)] identity) 3
        = [] :=
  make_graph_target_only_nodes_absent _ identity 3 (by decide)

/-- C10: for every graph and cost function, searching with start equal to end
returns `(0.0, [])` (cost zero, empty edge sequence) and never the absent
result — even when the start node has no outgoing edges or is absent from
the adjacency mapping.  Any positive fuel suffices: the kernel yields the
start node first and the loop breaks immediately. -/
theorem dijkstra_start_eq_goal (g : Graph α) (s : Node) (cost_fn : α → R)
    (fuel : ℕ) : dijkstra g s s cost_fn (fuel + 1) = some (some (0, [])) := by
  have hstep1 : kernelStep g cost_fn (ginit s ([] : Prev R α)) =
      some ((s, 0), ⟨[], setA [] s (none, 0, none), some (s, 0)⟩) := by
    simp [kernelStep, resolve, ginit, qmin, qminAux, qerase]
  have hloop : dijkstraLoop g cost_fn s (fuel + 1) (ginit s []) =
      some (some (0, setA [] s (none, 0, none))) := by
    simp [dijkstraLoop, hstep1]
  have hbt : backtrack (setA ([] : Prev R α) s (none, 0, none)) (fuel + 1) s = some [] := by
    simp [backtrack, setA, lookupA]
  simp [dijkstra, hloop, hbt]

/-- C2 (code bug): on the graph with edges
`[(1,5,100), (1,2,60), (2,5,60), (1,3,62), (4,5,62)]` and the identity cost
function, `dijkstra(g, 1, 5)` returns the optimal cost 100 (the direct edge),
but `bidirect_dijkstra(g, 1, 5)` returns cost 120 via node 2.  The forward
search pops node 1 while the backward search pops node 5 in the same
lockstep round, before either expansion has run, so the optimal meeting
point on the direct edge is never registered as a candidate (candidates are
checked only for just-popped nodes), and the strict stopping rule
`cost < fwd[1] + bwd[1]` fires at round three (120 < 62 + 62) with the
suboptimal meeting point 2.  Fuel 10 exceeds both searches' total rounds,
so neither result is a fuel artefact. -/
theorem bidirect_dijkstra_suboptimal_cost_bug :
    dijkstra (make_graph [(1, 5, (100 : ℤ)), (1, 2, 60), (2, 5, 60), (1, 3, 62),
        (4, 5, 62)] identity) 1 5 identity 10 =
      some (some (100, [(1, 5, some 100)])) ∧
    bidirect_dijkstra (make_graph [(1, 5, (100 : ℤ)), (1, 2, 60), (2, 5, 60), (1, 3, 62),
        (4, 5, 62)] identity) 1 5 identity 10 =
      some (some (120, [(1, 2, some 60), (2, 5, some 60)])) := by
  constructor
  · decide
  · decide

theorem relaxList_selfloops_no_change (cost_fn : α → R) (s : Node)
    (es : List (Node × α)) (q : Queue R) (pv : Prev R α) (e0 : PrevEntry R α)
    (hl : lookupA pv s = some e0) (h0 : e0.2.1 = 0)
    (hes : ∀ rp ∈ es, rp.1 = s ∧ 0 ≤ cost_fn rp.2) :
    relaxList cost_fn s 0 es (q, pv) = (q, pv) := by
  induction es with
  | nil => rfl
  | cons hd t ih =>
    obtain ⟨r, p⟩ := hd
    obtain ⟨hr, hp⟩ := hes (r, p) (List.mem_cons_self _ _)
    have hrel : relax1 cost_fn s 0 (q, pv) r p = (q, pv) := by
      simp only at hr
      subst hr
      unfold relax1
      simp only [hl]
      rw [if_neg]
      rw [h0]
      simpa using hp
    rw [show relaxList cost_fn s 0 ((r, p) :: t) (q, pv) =
      relaxList cost_fn s 0 t (relax1 cost_fn s 0 (q, pv) r p) from rfl]
    rw [hrel]
    exact ih (fun rp hrp => hes rp (List.mem_cons_of_mem _ hrp))

/-- C6: if no node other than `start` is reachable from `start` (in
particular when `start` has no outgoing edges or is absent from the
adjacency mapping), the kernel yields exactly the single pair `(start, 0)`
and then terminates the sequence cleanly, for every positive fuel and every
initial `previous` table, under the non-negative cost contract. -/
theorem kernel_isolated_start_single_yield (g : Graph α) (s : Node)
    (pv0 : Prev R α) (cost_fn : α → R)
    (hreach : ∀ n, Reachable g s n → n = s) (hnn : NonnegCost g cost_fn)
    (fuel : ℕ) : dijkstra_kernel g s pv0 cost_fn (fuel + 1) = [(s, 0)] := by
  have hes : ∀ rp ∈ graphGet g s, rp.1 = s ∧ 0 ≤ cost_fn rp.2 := by
    intro rp hrp
    refine ⟨?_, nonneg_of_edge hnn (by simpa using hrp)⟩
    refine hreach rp.1 ⟨[(s, rp.1, rp.2)], ?_⟩
    exact Walk.cons (show EdgeIn g s rp.1 rp.2 by simpa [EdgeIn] using hrp) (Walk.nil _)
  have hpv1 : lookupA (setA pv0 s ((none, 0, none) : PrevEntry R α)) s =
      some (none, 0, none) := lookupA_setA_self _ _ _
  have hstep1 : kernelStep g cost_fn (ginit s pv0) =
      some ((s, 0), ⟨[], setA pv0 s (none, 0, none), some (s, 0)⟩) := by
    simp [kernelStep, resolve, ginit, qmin, qminAux, qerase]
  unfold dijkstra_kernel
  rw [show runTrace g cost_fn (fuel + 1) (ginit s pv0) =
    (match kernelStep g cost_fn (ginit s pv0) with
      | none => []
      | some (y, st1) => y :: runTrace g cost_fn fuel st1) from rfl]
  rw [hstep1]
  cases fuel with
  | zero => rfl
  | succ f2 =>
    have hexp : expand g cost_fn s 0 [] (setA pv0 s (none, 0, none)) =
        ([], setA pv0 s (none, 0, none)) :=
      relaxList_selfloops_no_change cost_fn s (graphGet g s) [] _ _ hpv1 rfl hes
    simp [runTrace, kernelStep, resolve, hexp, qmin]

end DijkstraSrc

namespace DijkstraSrc

/-- C6 witness: on the empty graph (start absent from the adjacency mapping)
the kernel yields exactly `(start, 0)` and stops. -/
theorem kernel_isolated_start_single_yield_witness :
    dijkstra_kernel ([] : Graph ℤ) 1 [] (identity : ℤ → ℤ) 4 = [(1, 0)] := by
  refine kernel_isolated_start_single_yield ([] : Graph ℤ) 1 [] identity ?_ ?_ 3
  · intro n hn
    obtain ⟨w, hw⟩ := hn
    cases hw with
    | nil => rfl
    | cons he hrest => simp [EdgeIn, graphGet, lookupA] at he
  · intro le hle
    simp at hle

end DijkstraSrc

namespace DijkstraSrc

variable {R : Type} [LinearOrderedAddCommMonoid R] {α β : Type}

theorem mem_setA_weak {l : List (Node × β)} {n : Node} {v : β} {x : Node × β}
    (h : x ∈ setA l n v) : x ∈ l ∨ x = (n, v) := by
  induction l with
  | nil => simpa [setA] using h
  | cons hd t ih =>
    obtain ⟨k, w⟩ := hd
    by_cases hk : k = n
    · subst hk
      rcases (by simpa [setA] using h : x = (k, v) ∨ x ∈ t) with h2 | h2
      · exact Or.inr (by simp [h2])
      · exact Or.inl (List.mem_cons_of_mem _ h2)
    · rcases (by simpa [setA, hk] using h : x = (k, w) ∨ x ∈ setA t n v) with h2 | h2
      · exact Or.inl (by simp [h2])
      · rcases ih h2 with h3 | h3
        · exact Or.inl (List.mem_cons_of_mem _ h3)
        · exact Or.inr h3

/-- Either a relaxation does nothing, or it rewrites both the frontier and the
table for the target and the improvement condition held. -/
theorem relax1_split (cost_fn : α → R) (l : Node) (c : R) (q : Queue R)
    (pv : Prev R α) (r : Node) (p : α) :
    (relax1 cost_fn l c (q, pv) r p = (q, pv) ∧
      ∃ e0, lookupA pv r = some e0 ∧ ¬ c + cost_fn p < e0.2.1) ∨
    (relax1 cost_fn l c (q, pv) r p =
        (setA q r (c + cost_fn p), setA pv r (some l, c + cost_fn p, some p)) ∧
      (lookupA pv r = none ∨
        ∃ e0, lookupA pv r = some e0 ∧ c + cost_fn p < e0.2.1)) := by
  cases h : lookupA pv r with
  | none =>
    refine Or.inr ⟨?_, Or.inl rfl⟩
    simp [relax1, h]
  | some e0 =>
    by_cases hlt : c + cost_fn p < e0.2.1
    · refine Or.inr ⟨?_, Or.inr ⟨e0, rfl, hlt⟩⟩
      simp [relax1, h, hlt]
    · refine Or.inl ⟨?_, e0, rfl, hlt⟩
      simp [relax1, h, hlt]

/-- Eager presentation of the kernel: pop, then expand at once.  It produces
the same yield sequence as the suspended generator (`runTrace_eq_erun`). -/
def erun (g : Graph α) (cost_fn : α → R) : ℕ → Queue R → Prev R α → List (Node × R)
  | 0, _, _ => []
  | fuel + 1, q, pv =>
    match qmin q with
    | none => []
    | some (n, c) =>
      (n, c) :: erun g cost_fn fuel (expand g cost_fn n c (qerase q n) pv).1
        (expand g cost_fn n c (qerase q n) pv).2

theorem runTrace_eq_erun (g : Graph α) (cost_fn : α → R) :
    ∀ (fuel : ℕ) (st : Gen R α),
      runTrace g cost_fn fuel st =
        erun g cost_fn fuel (resolve g cost_fn st).1 (resolve g cost_fn st).2 := by
  intro fuel
  induction fuel with
  | zero => intro st; rfl
  | succ f ih =>
    intro st
    rw [show runTrace g cost_fn (f + 1) st =
      (match kernelStep g cost_fn st with
        | none => []
        | some (y, st1) => y :: runTrace g cost_fn f st1) from rfl]
    unfold kernelStep
    cases hq : qmin (resolve g cost_fn st).1 with
    | none =>
      simp only [hq]
      rw [show erun g cost_fn (f + 1) (resolve g cost_fn st).1 (resolve g cost_fn st).2 =
        (match qmin (resolve g cost_fn st).1 with
          | none => []
          | some (n, c) => (n, c) :: erun g cost_fn f
              (expand g cost_fn n c (qerase (resolve g cost_fn st).1 n)
                (resolve g cost_fn st).2).1
              (expand g cost_fn n c (qerase (resolve g cost_fn st).1 n)
                (resolve g cost_fn st).2).2) from rfl]
      rw [hq]
    | some nc =>
      obtain ⟨n, c⟩ := nc
      simp only [hq]
      rw [show erun g cost_fn (f + 1) (resolve g cost_fn st).1 (resolve g cost_fn st).2 =
        (match qmin (resolve g cost_fn st).1 with
          | none => []
          | some (n, c) => (n, c) :: erun g cost_fn f
              (expand g cost_fn n c (qerase (resolve g cost_fn st).1 n)
                (resolve g cost_fn st).2).1
              (expand g cost_fn n c (qerase (resolve g cost_fn st).1 n)
                (resolve g cost_fn st).2).2) from rfl]
      rw [hq]
      congr 1
      rw [ih ⟨qerase (resolve g cost_fn st).1 n, (resolve g cost_fn st).2, some (n, c)⟩]
      rfl

/-- State invariants of a kernel run, over the current frontier `q`, table
`pv` and the already-popped prefix `P` (in pop order).  These hold for any
initial `previous` table, so they serve the kernel-level claims. -/
structure KInv (q : Queue R) (pv : Prev R α) (P : List (Node × R)) : Prop where
  qnodup : (q.map Prod.fst).Nodup
  qsync : ∀ n c, (n, c) ∈ q → ∃ pr pl, lookupA pv n = some (pr, c, pl)
  psync : ∀ n c, (n, c) ∈ P → ∃ pr pl, lookupA pv n = some (pr, c, pl)
  pnotq : ∀ n c, (n, c) ∈ P → n ∉ q.map Prod.fst
  pq_le : ∀ x ∈ P, ∀ y ∈ q, x.2 ≤ y.2
  pmono : List.Pairwise (fun x y : Node × R => x.2 ≤ y.2) P
  pnodup : (P.map Prod.fst).Nodup

theorem KInv_relax1 {q : Queue R} {pv : Prev R α} {P : List (Node × R)}
    (hinv : KInv q pv P) (cost_fn : α → R) (l : Node) (c : R) (r : Node) (p : α)
    (hp : 0 ≤ cost_fn p) (hPc : ∀ x ∈ P, x.2 ≤ c) (hqc : ∀ y ∈ q, c ≤ y.2) :
    KInv (relax1 cost_fn l c (q, pv) r p).1 (relax1 cost_fn l c (q, pv) r p).2 P ∧
      (∀ y ∈ (relax1 cost_fn l c (q, pv) r p).1, c ≤ y.2) := by
  rcases relax1_split cost_fn l c q pv r p with ⟨heq, hskip⟩ | ⟨heq, hcond⟩
  · rw [heq]
    exact ⟨hinv, hqc⟩
  · rw [heq]
    have halt : c ≤ c + cost_fn p := le_add_of_nonneg_right hp
    have hrP : ∀ cr, ¬ (r, cr) ∈ P := by
      intro cr hr
      obtain ⟨pr, pl, hlook⟩ := hinv.psync r cr hr
      rcases hcond with hnone | ⟨e0, hsome, hlt⟩
      · rw [hlook] at hnone
        exact Option.noConfusion hnone
      · rw [hlook] at hsome
        have he : e0 = (pr, cr, pl) := by
          injection hsome with h2
          exact h2.symm
        rw [he] at hlt
        have hcr : cr ≤ c := hPc (r, cr) hr
        simp only at hlt
        exact absurd hlt (not_lt_of_le (hcr.trans halt))
    have hrPk : r ∉ P.map Prod.fst := by
      intro hmem
      obtain ⟨x, hx, hx1⟩ := List.mem_map.1 hmem
      obtain ⟨x1, x2⟩ := x
      simp only at hx1
      exact hrP x2 (hx1 ▸ hx)
    refine ⟨⟨?_, ?_, ?_, ?_, ?_, hinv.pmono, hinv.pnodup⟩, ?_⟩
    · exact keys_nodup_setA q r _ hinv.qnodup
    · intro n cn hmem
      rcases mem_setA_cases q r _ hinv.qnodup hmem with ⟨hn1, hn2⟩ | ⟨hold, hne⟩
      · rw [hn1, hn2]
        exact ⟨some l, some p, lookupA_setA_self pv r _⟩
      · obtain ⟨pr, pl, hlook⟩ := hinv.qsync n cn hold
        exact ⟨pr, pl, by rw [lookupA_setA_ne pv r _ n (fun h => hne h.symm), hlook]⟩
    · intro n cn hmem
      have hne : ¬ r = n := fun h => hrPk (h ▸ List.mem_map_of_mem Prod.fst hmem)
      obtain ⟨pr, pl, hlook⟩ := hinv.psync n cn hmem
      exact ⟨pr, pl, by rw [lookupA_setA_ne pv r _ n hne, hlook]⟩
    · intro n cn hmem
      intro hk
      rcases (mem_keys_setA q r _ n).1 hk with hk2 | hk2
      · exact hinv.pnotq n cn hmem hk2
      · exact hrPk (hk2 ▸ List.mem_map_of_mem Prod.fst hmem)
    · intro x hx y hy
      rcases mem_setA_weak hy with hy2 | hy2
      · exact hinv.pq_le x hx y hy2
      · rw [hy2]
        exact (hPc x hx).trans halt
    · intro y hy
      rcases mem_setA_weak hy with hy2 | hy2
      · exact hqc y hy2
      · rw [hy2]
        exact halt

theorem KInv_relaxList {q : Queue R} {pv : Prev R α} {P : List (Node × R)}
    (hinv : KInv q pv P) (cost_fn : α → R) (l : Node) (c : R)
    (es : List (Node × α)) (hes : ∀ rp ∈ es, 0 ≤ cost_fn rp.2)
    (hPc : ∀ x ∈ P, x.2 ≤ c) (hqc : ∀ y ∈ q, c ≤ y.2) :
    KInv (relaxList cost_fn l c es (q, pv)).1 (relaxList cost_fn l c es (q, pv)).2 P ∧
      (∀ y ∈ (relaxList cost_fn l c es (q, pv)).1, c ≤ y.2) := by
  revert hinv hqc
  induction es generalizing q pv with
  | nil =>
    intro hinv hqc
    exact ⟨hinv, hqc⟩
  | cons hd t ih =>
    intro hinv hqc
    obtain ⟨r, p⟩ := hd
    have h1 := KInv_relax1 hinv cost_fn l c r p
      (hes (r, p) (List.mem_cons_self _ _)) hPc hqc
    rw [show relaxList cost_fn l c ((r, p) :: t) (q, pv) =
      relaxList cost_fn l c t (relax1 cost_fn l c (q, pv) r p) from rfl]
    have h2 := ih (fun rp hrp => hes rp (List.mem_cons_of_mem _ hrp)) h1.1 h1.2
    simpa using h2

end DijkstraSrc

namespace DijkstraSrc

variable {R : Type} [LinearOrderedAddCommMonoid R] {α β : Type}

theorem KInv_init (s : Node) (pv0 : Prev R α) :
    KInv [(s, (0 : R))] (setA pv0 s (none, 0, none)) ([] : List (Node × R)) := by
  refine ⟨by simp, ?_, by simp, by simp, by simp, by simp, by simp⟩
  intro n c hmem
  rcases (by simpa using hmem : n = s ∧ c = 0) with ⟨hn, hc⟩
  rw [hn, hc]
  exact ⟨none, none, lookupA_setA_self pv0 s _⟩

theorem KInv_pop {q : Queue R} {pv : Prev R α}
    {P : List (Node × R)} (hinv : KInv q pv P) {n : Node} {c : R}
    (hq : qmin q = some (n, c)) :
    KInv (qerase q n) pv (P ++ [(n, c)]) ∧
      (∀ y ∈ qerase q n, c ≤ y.2) ∧ (∀ x ∈ P ++ [(n, c)], x.2 ≤ c) := by
  have hmemq : (n, c) ∈ q := qmin_mem hq
  have hnkeys : n ∈ q.map Prod.fst := List.mem_map_of_mem Prod.fst hmemq
  have hPle : ∀ x ∈ P, x.2 ≤ c := fun x hx => hinv.pq_le x hx (n, c) hmemq
  have hmid : KInv (qerase q n) pv (P ++ [(n, c)]) := by
    refine ⟨keys_qerase_nodup n hinv.qnodup, ?_, ?_, ?_, ?_, ?_, ?_⟩
    · intro m cm hm
      exact hinv.qsync m cm (mem_of_mem_qerase hm)
    · intro m cm hm
      rcases (by simpa using hm : (m, cm) ∈ P ∨ (m = n ∧ cm = c)) with hm2 | ⟨rfl, rfl⟩
      · exact hinv.psync m cm hm2
      · exact hinv.qsync m cm hmemq
    · intro m cm hm hk
      have hk2 : m ∈ q.map Prod.fst :=
        List.map_subset Prod.fst (fun x hx => mem_of_mem_qerase hx) hk
      rcases (by simpa using hm : (m, cm) ∈ P ∨ (m = n ∧ cm = c)) with hm2 | ⟨rfl, rfl⟩
      · exact hinv.pnotq m cm hm2 hk2
      · exact not_mem_keys_qerase hinv.qnodup hk
    · intro x hx y hy
      rcases (by simpa using hx : x ∈ P ∨ x = (n, c)) with hx2 | rfl
      · exact hinv.pq_le x hx2 y (mem_of_mem_qerase hy)
      · exact qmin_le hq y (mem_of_mem_qerase hy)
    · rw [List.pairwise_append]
      refine ⟨hinv.pmono, by simp, ?_⟩
      intro x hx y hy
      rcases (by simpa using hy : y = (n, c)) with rfl
      exact hPle x hx
    · rw [List.map_append, List.nodup_append]
      refine ⟨hinv.pnodup, by simp, ?_⟩
      intro m hm hm2
      rcases (by simpa using hm2 : m = n) with rfl
      obtain ⟨x, hx, hx1⟩ := List.mem_map.1 hm
      obtain ⟨x1, x2⟩ := x
      simp only at hx1
      exact hinv.pnotq m x2 (hx1 ▸ hx) hnkeys
  have hqc : ∀ y ∈ qerase q n, c ≤ y.2 := fun y hy =>
    qmin_le hq y (mem_of_mem_qerase hy)
  have hPc : ∀ x ∈ P ++ [(n, c)], x.2 ≤ c := by
    intro x hx
    rcases (by simpa using hx : x ∈ P ∨ x = (n, c)) with hx2 | rfl
    · exact hPle x hx2
    · exact le_refl c
  exact ⟨hmid, hqc, hPc⟩

theorem KInv_step (g : Graph α) (cost_fn : α → R) {q : Queue R} {pv : Prev R α}
    {P : List (Node × R)} (hinv : KInv q pv P) {n : Node} {c : R}
    (hq : qmin q = some (n, c)) (hnn : ∀ rp ∈ graphGet g n, 0 ≤ cost_fn rp.2) :
    KInv (expand g cost_fn n c (qerase q n) pv).1
        (expand g cost_fn n c (qerase q n) pv).2 (P ++ [(n, c)]) ∧
      (∀ y ∈ (expand g cost_fn n c (qerase q n) pv).1, c ≤ y.2) := by
  obtain ⟨hmid, hqc, hPc⟩ := KInv_pop hinv hq
  exact KInv_relaxList hmid cost_fn n c (graphGet g n) hnn hPc hqc

theorem NonnegCost_graphGet {g : Graph α} {cost_fn : α → R}
    (hnn : NonnegCost g cost_fn) (n : Node) :
    ∀ rp ∈ graphGet g n, 0 ≤ cost_fn rp.2 := by
  intro rp hrp
  obtain ⟨r, p⟩ := rp
  exact nonneg_of_edge hnn hrp

theorem erun_KInv (g : Graph α) (cost_fn : α → R) (hnn : NonnegCost g cost_fn) :
    ∀ (fuel : ℕ) (q : Queue R) (pv : Prev R α) (P : List (Node × R)),
      KInv q pv P →
      List.Pairwise (fun x y : Node × R => x.2 ≤ y.2)
          (P ++ erun g cost_fn fuel q pv) ∧
        ((P ++ erun g cost_fn fuel q pv).map Prod.fst).Nodup := by
  intro fuel
  induction fuel with
  | zero =>
    intro q pv P hinv
    simpa [erun] using And.intro hinv.pmono hinv.pnodup
  | succ f ih =>
    intro q pv P hinv
    rw [show erun g cost_fn (f + 1) q pv =
      (match qmin q with
        | none => []
        | some (n, c) => (n, c) :: erun g cost_fn f
            (expand g cost_fn n c (qerase q n) pv).1
            (expand g cost_fn n c (qerase q n) pv).2) from rfl]
    cases hq : qmin q with
    | none => simpa using And.intro hinv.pmono hinv.pnodup
    | some nc =>
      obtain ⟨n, c⟩ := nc
      have hstep := KInv_step g cost_fn hinv hq (NonnegCost_graphGet hnn n)
      have hrec := ih (expand g cost_fn n c (qerase q n) pv).1
        (expand g cost_fn n c (qerase q n) pv).2 (P ++ [(n, c)]) hstep.1
      simpa [List.append_assoc] using hrec

/-- C3: for every graph, start node, initial table and non-negative cost
function, the `(node, cost)` pairs yielded by `dijkstra_kernel` have
globally non-decreasing costs: the yield sequence is pairwise ordered by
cost, so a pair yielded earlier never has a larger cost than a later one. -/
theorem dijkstra_kernel_pops_nondecreasing (g : Graph α) (s : Node)
    (pv0 : Prev R α) (cost_fn : α → R) (fuel : ℕ) (hnn : NonnegCost g cost_fn) :
    List.Pairwise (fun x y : Node × R => x.2 ≤ y.2)
      (dijkstra_kernel g s pv0 cost_fn fuel) := by
  unfold dijkstra_kernel
  rw [runTrace_eq_erun]
  have h := (erun_KInv g cost_fn hnn fuel [(s, 0)] (setA pv0 s (none, 0, none)) []
    (KInv_init s pv0)).1
  simpa using h

/-- C3 witness: the kernel trace of the concrete three-edge graph is
`[(1, 0), (3, 1), (2, 3)]`, with non-decreasing costs. -/
theorem dijkstra_kernel_pops_nondecreasing_witness :
    List.Pairwise (fun x y : Node × ℤ => x.2 ≤ y.2)
      (dijkstra_kernel (make_graph [(1, 2, (10 : ℤ)), (1, 3, 1), (3, 2, 2)] identity)
        1 [] identity 10) :=
  dijkstra_kernel_pops_nondecreasing _ 1 [] identity 10 (by unfold NonnegCost; decide)

/-- C4 counterexample: the kernel's frontier is a decrease-key dict, so the
scenario the claim asserts — two simultaneous entries for one node, the
stale one popped and yielded as a duplicate — does not happen.  In the graph
`[(1,2,10), (1,3,1), (3,2,2)]` node 2 enters the frontier at cost 10 and a
cheaper alternative (cost 3 via node 3) is found while it is still queued;
right after node 3's expansion the frontier holds exactly the single entry
`(2, 3)` (the cost-10 entry was overwritten in place), and the full yield
sequence is `[(1,0), (3,1), (2,3)]`, with node 2 yielded exactly once. -/
theorem kernel_decrease_key_no_stale_entries_cex :
    dijkstra_kernel (make_graph [(1, 2, (10 : ℤ)), (1, 3, 1), (3, 2, 2)] identity)
        1 [] identity 10 = [(1, 0), (3, 1), (2, 3)] ∧
      ((kernelStep (make_graph [(1, 2, (10 : ℤ)), (1, 3, 1), (3, 2, 2)] identity)
            identity (ginit 1 [])).bind (fun y1 =>
          (kernelStep (make_graph [(1, 2, (10 : ℤ)), (1, 3, 1), (3, 2, 2)] identity)
              identity y1.2).map (fun y2 =>
            (resolve (make_graph [(1, 2, (10 : ℤ)), (1, 3, 1), (3, 2, 2)] identity)
              identity y2.2).1))) = some [(2, 3)] := by
  constructor
  · decide
  · decide

/-- C4 amended: the frontier is a heapdict, a decrease-key priority dict
holding at most one entry per node; discovering a cheaper alternative for a
queued node overwrites its priority in place, so no stale entry remains to
be popped, and under the non-negative cost contract the kernel yields every
node at most once (no re-visits at all). -/
theorem kernel_no_duplicate_yields_nonneg (g : Graph α) (s : Node)
    (pv0 : Prev R α) (cost_fn : α → R) (fuel : ℕ) (hnn : NonnegCost g cost_fn) :
    ((dijkstra_kernel g s pv0 cost_fn fuel).map Prod.fst).Nodup := by
  unfold dijkstra_kernel
  rw [runTrace_eq_erun]
  have h := (erun_KInv g cost_fn hnn fuel [(s, 0)] (setA pv0 s (none, 0, none)) []
    (KInv_init s pv0)).2
  simpa using h

/-- C4 amended witness: in the concrete run above, the yielded nodes
`[1, 3, 2]` are pairwise distinct. -/
theorem kernel_no_duplicate_yields_nonneg_witness :
    ((dijkstra_kernel (make_graph [(1, 2, (10 : ℤ)), (1, 3, 1), (3, 2, 2)] identity)
        1 [] identity 10).map Prod.fst).Nodup :=
  kernel_no_duplicate_yields_nonneg _ 1 [] identity 10 (by unfold NonnegCost; decide)

end DijkstraSrc

namespace DijkstraSrc

variable {R : Type} [LinearOrderedAddCommMonoid R] {α β : Type}

theorem wcost_nil (cost_fn : α → R) : wcost cost_fn [] = 0 := rfl

theorem wcost_cons (cost_fn : α → R) (e : Node × Node × α)
    (w : List (Node × Node × α)) :
    wcost cost_fn (e :: w) = cost_fn e.2.2 + wcost cost_fn w := by
  simp [wcost]

theorem wcost_append (cost_fn : α → R) (w1 w2 : List (Node × Node × α)) :
    wcost cost_fn (w1 ++ w2) = wcost cost_fn w1 + wcost cost_fn w2 := by
  simp [wcost]

theorem walk_snoc {g : Graph α} {s y z : Node} {p : α}
    {w : List (Node × Node × α)} (hw : Walk g s y w) (he : EdgeIn g y z p) :
    Walk g s z (w ++ [(y, z, p)]) := by
  induction hw with
  | nil n => exact Walk.cons he (Walk.nil z)
  | cons he2 hw2 ih => exact Walk.cons he2 (ih he)

theorem walk_snoc_cases {g : Graph α} {s z : Node} {w : List (Node × Node × α)}
    (hw : Walk g s z w) :
    (w = [] ∧ z = s) ∨
      ∃ w0 y p, w = w0 ++ [(y, z, p)] ∧ Walk g s y w0 ∧ EdgeIn g y z p := by
  induction hw with
  | nil n => exact Or.inl ⟨rfl, rfl⟩
  | cons he hw2 ih =>
    rename_i a b c p w2
    rcases ih with ⟨rfl, rfl⟩ | ⟨w0, y, p2, rfl, hw0, he2⟩
    · exact Or.inr ⟨[], a, p, rfl, Walk.nil a, he⟩
    · exact Or.inr ⟨(a, b, p) :: w0, y, p2, rfl, Walk.cons he hw0, he2⟩

theorem walk_cost_nonneg {g : Graph α} {cost_fn : α → R}
    (hnn : NonnegCost g cost_fn) {s z : Node} {w : List (Node × Node × α)}
    (hw : Walk g s z w) : 0 ≤ wcost cost_fn w := by
  induction hw with
  | nil n => simp [wcost]
  | cons he hw2 ih =>
    rename_i a b c p w2
    rw [wcost_cons]
    exact add_nonneg (nonneg_of_edge hnn he) ih

/-- Backtrack chains anchored in a node set `S`: every predecessor hop stays
inside `S`, and the chain has depth at most `k`.  Entries of `S`-nodes are
frozen once popped, so these chains survive later table updates. -/
inductive BChain (pv : Prev R α) (S : List Node) : ℕ → Node → Prop
  | sent {n : Node} {k : ℕ} {c : R} {pl : Option α} :
      lookupA pv n = some (none, c, pl) → BChain pv S k n
  | step {n m : Node} {k : ℕ} {c : R} {p : α} :
      lookupA pv n = some (some m, c, some p) → m ∈ S → BChain pv S k m →
      BChain pv S (k + 1) n

theorem BChain_mono_k {pv : Prev R α} {S : List Node} {k k2 : ℕ} {n : Node}
    (h : BChain pv S k n) (hk : k ≤ k2) : BChain pv S k2 n := by
  induction h generalizing k2 with
  | sent hl => exact BChain.sent hl
  | step hl hm hc ih =>
    rename_i n2 m k3 c p
    cases k2 with
    | zero => omega
    | succ k4 => exact BChain.step hl hm (ih (by omega))

theorem BChain_mono_S {pv : Prev R α} {S S2 : List Node} {k : ℕ} {n : Node}
    (h : BChain pv S k n) (hs : ∀ m ∈ S, m ∈ S2) : BChain pv S2 k n := by
  induction h with
  | sent hl => exact BChain.sent hl
  | step hl hm hc ih => exact BChain.step hl (hs _ hm) ih

theorem BChain_stable {pv pv2 : Prev R α} {S : List Node} {k : ℕ} {n : Node}
    (h : BChain pv S k n) (hn : n ∈ S)
    (hpv : ∀ m ∈ S, lookupA pv2 m = lookupA pv m) : BChain pv2 S k n := by
  induction h with
  | sent hl =>
    rename_i n2 k2 c pl
    exact BChain.sent ((hpv n2 hn).trans hl)
  | step hl hm hc ih =>
    rename_i n2 m k2 c p
    exact BChain.step ((hpv n2 hn).trans hl) hm (ih hm)

theorem backtrack_of_BChain {pv : Prev R α} {S : List Node} {k : ℕ} {n : Node}
    (h : BChain pv S k n) :
    ∃ hops, ∀ f, k < f → backtrack pv f n = some hops := by
  induction h with
  | sent hl =>
    refine ⟨[], ?_⟩
    intro f hf
    cases f with
    | zero => omega
    | succ f2 => simp [backtrack, hl]
  | step hl hm hc ih =>
    rename_i n2 m k2 c p
    obtain ⟨hops, hh⟩ := ih
    refine ⟨(m, n2, some p) :: hops, ?_⟩
    intro f hf
    cases f with
    | zero => omega
    | succ f2 => simp [backtrack, hl, hh f2 (by omega)]

theorem mem_edgeList {g : Graph α} {l r : Node} {p : α} :
    (l, r, p) ∈ edgeList g ↔ ∃ es, (l, es) ∈ g ∧ (r, p) ∈ es := by
  induction g with
  | nil => simp [edgeList]
  | cons hd t ih =>
    obtain ⟨k, es⟩ := hd
    simp only [edgeList, List.mem_append, List.mem_map, List.mem_cons]
    constructor
    · rintro (⟨rp, hrp, heq⟩ | h)
      · obtain ⟨r2, p2⟩ := rp
        rcases (by simpa using heq : k = l ∧ r2 = r ∧ p2 = p) with ⟨h1, h2, h3⟩
        refine ⟨es, Or.inl (by simp [h1]), ?_⟩
        rw [← h2, ← h3]
        exact hrp
      · obtain ⟨es2, hmem, hrp⟩ := ih.1 h
        exact ⟨es2, Or.inr hmem, hrp⟩
    · rintro ⟨es2, hmem | hmem, hrp⟩
      · rcases (by simpa using hmem : l = k ∧ es2 = es) with ⟨h1, h2⟩
        refine Or.inl ⟨(r, p), ?_, by simp [h1]⟩
        rw [← h2]
        exact hrp
      · exact Or.inr (ih.2 ⟨es2, hmem, hrp⟩)

theorem lookup_of_mem_nodup {g : Graph α} (hkeys : (g.map Prod.fst).Nodup)
    {l : Node} {es : List (Node × α)} (h : (l, es) ∈ g) : lookupA g l = some es := by
  induction g with
  | nil => simp at h
  | cons hd t ih =>
    obtain ⟨k, es2⟩ := hd
    simp only [List.map_cons, List.nodup_cons] at hkeys
    rcases (by simpa using h : (l = k ∧ es = es2) ∨ (l, es) ∈ t) with ⟨h1, h2⟩ | h2
    · simp [lookupA, h1, h2]
    · have hkl : ¬ k = l := fun hh => hkeys.1 (hh ▸ List.mem_map_of_mem Prod.fst h2)
      simp [lookupA, hkl, ih hkeys.2 h2]

theorem EdgeIn_mem_edgeList {g : Graph α} {l r : Node} {p : α}
    (h : EdgeIn g l r p) : (l, r, p) ∈ edgeList g := by
  unfold EdgeIn graphGet at h
  cases hl : lookupA g l with
  | none => rw [hl] at h; simp at h
  | some es =>
    rw [hl] at h
    simp only [Option.getD_some] at h
    exact mem_edgeList.2 ⟨es, lookupA_mem hl, h⟩

theorem mem_edgeList_EdgeIn {g : Graph α} (hkeys : (g.map Prod.fst).Nodup)
    {l r : Node} {p : α} (h : (l, r, p) ∈ edgeList g) : EdgeIn g l r p := by
  obtain ⟨es, hmem, hrp⟩ := mem_edgeList.1 h
  unfold EdgeIn graphGet
  rw [lookup_of_mem_nodup hkeys hmem]
  simpa using hrp

theorem mem_targets_of {g : Graph α} {l r : Node} {p : α}
    {es : List (Node × α)} (hmem : (l, es) ∈ g) (hrp : (r, p) ∈ es) :
    r ∈ targets g := by
  induction g with
  | nil => simp at hmem
  | cons hd t ih =>
    obtain ⟨k, es2⟩ := hd
    simp only [targets, List.mem_append]
    rcases (by simpa using hmem : (l = k ∧ es = es2) ∨ (l, es) ∈ t) with ⟨h1, h2⟩ | h2
    · refine Or.inl ?_
      rw [← h2]
      exact List.mem_map_of_mem Prod.fst hrp
    · exact Or.inr (ih h2)

theorem target_of_edge {g : Graph α} {l r : Node} {p : α}
    (h : EdgeIn g l r p) : r ∈ targets g := by
  obtain ⟨es, hmem, hrp⟩ := mem_edgeList.1 (EdgeIn_mem_edgeList h)
  exact mem_targets_of hmem hrp

theorem length_targets (g : Graph α) : (targets g).length = totalEdges g := by
  induction g with
  | nil => rfl
  | cons hd t ih => simp [targets, totalEdges, ih]

theorem nodup_sub_length {l l2 : List Node} (hnd : l.Nodup) (hsub : ∀ m ∈ l, m ∈ l2) :
    l.length ≤ l2.length :=
  List.Subperm.length_le (List.subperm_of_subset hnd hsub)

end DijkstraSrc

namespace DijkstraSrc

variable {R : Type} [LinearOrderedAddCommMonoid R] {α β : Type}

/-- A table entry for the target of an edge, of cost at most `b` plus the
edge cost: the relaxedness obligation for one edge out of a node settled at
cost `b`. -/
def entryLE (cost_fn : α → R) (pv : Prev R α) (b : R) (rp : Node × α) : Prop :=
  ∃ pr cr pl, lookupA pv rp.1 = some (pr, cr, pl) ∧ cr ≤ b + cost_fn rp.2

/-- Every popped node has all its outgoing edges relaxed in the table. -/
def RelaxedAll (g : Graph α) (cost_fn : α → R) (pv : Prev R α)
    (P : List (Node × R)) : Prop :=
  ∀ x ∈ P, ∀ rp ∈ graphGet g x.1, entryLE cost_fn pv x.2 rp

/-- A relaxation never deletes a table entry and never raises its cost. -/
theorem relax1_lookup_mono (cost_fn : α → R) (l : Node) (c : R) (q : Queue R)
    (pv : Prev R α) (r : Node) (p : α) {z : Node} {pr : Option Node} {cz : R}
    {pl : Option α} (h : lookupA pv z = some (pr, cz, pl)) :
    ∃ pr2 cz2 pl2,
      lookupA (relax1 cost_fn l c (q, pv) r p).2 z = some (pr2, cz2, pl2) ∧ cz2 ≤ cz := by
  rcases relax1_split cost_fn l c q pv r p with ⟨heq, hskip⟩ | ⟨heq, hcond⟩
  · rw [heq]
    exact ⟨pr, cz, pl, h, le_refl cz⟩
  · rw [heq]
    by_cases hz : r = z
    · subst hz
      rcases hcond with hnone | ⟨e0, hsome, hlt⟩
      · rw [h] at hnone
        exact Option.noConfusion hnone
      · rw [h] at hsome
        have he : e0 = (pr, cz, pl) := by
          injection hsome with h2
          exact h2.symm
        refine ⟨some l, c + cost_fn p, some p, lookupA_setA_self pv r _, ?_⟩
        rw [he] at hlt
        simpa using le_of_lt hlt
    · rw [lookupA_setA_ne pv r _ z hz, h]
      exact ⟨pr, cz, pl, rfl, le_refl cz⟩

theorem entryLE_relax1_mono {cost_fn : α → R} {pv : Prev R α} {b : R}
    {rp : Node × α} (h : entryLE cost_fn pv b rp) (l : Node) (c : R)
    (q : Queue R) (r : Node) (p : α) :
    entryLE cost_fn (relax1 cost_fn l c (q, pv) r p).2 b rp := by
  obtain ⟨pr, cr, pl, hlook, hle⟩ := h
  obtain ⟨pr2, cr2, pl2, hlook2, hle2⟩ :=
    relax1_lookup_mono cost_fn l c q pv r p hlook
  exact ⟨pr2, cr2, pl2, hlook2, hle2.trans hle⟩

/-- The invariant pack of a search started by `dijkstra` or
`bidirect_dijkstra`: `ginit s []`, so every table entry traces back to an
actual walk from `s`. -/
structure GBase (g : Graph α) (cost_fn : α → R) (s : Node) (q : Queue R)
    (pv : Prev R α) (P : List (Node × R)) : Prop where
  base : KInv q pv P
  nonnegQ : ∀ y ∈ q, 0 ≤ y.2
  sound : ∀ n pr cn pl, lookupA pv n = some (pr, cn, pl) →
    ∃ w, Walk g s n w ∧ wcost cost_fn w = cn
  sEntry : lookupA pv s = some (none, 0, none)
  sIn : s ∈ q.map Prod.fst ∨ s ∈ P.map Prod.fst
  pvIn : ∀ n, (lookupA pv n).isSome → n ∈ P.map Prod.fst ∨ n ∈ q.map Prod.fst
  predP : ∀ n pr cn pl, lookupA pv n = some (pr, cn, pl) →
    (pr = none ∧ n = s) ∨ ∃ m p2, pr = some m ∧ pl = some p2 ∧ m ∈ P.map Prod.fst
  bchain : ∀ x ∈ P, BChain pv (P.map Prod.fst) P.length x.1
  qsub : ∀ m ∈ q.map Prod.fst, m ∈ s :: targets g
  psub : ∀ m ∈ P.map Prod.fst, m ∈ s :: targets g
  popt : ∀ x ∈ P, ∀ w, Walk g s x.1 w → x.2 ≤ wcost cost_fn w

theorem GBase_relax1 {g : Graph α} {cost_fn : α → R} {s : Node} {q : Queue R}
    {pv : Prev R α} {P : List (Node × R)} (hG : GBase g cost_fn s q pv P)
    {n : Node} {c : R} (hnP : (n, c) ∈ P) {r : Node} {p : α}
    (hedge : EdgeIn g n r p) (hp : 0 ≤ cost_fn p)
    (hPc : ∀ x ∈ P, x.2 ≤ c) (hqc : ∀ y ∈ q, c ≤ y.2) (hc0 : 0 ≤ c) :
    GBase g cost_fn s (relax1 cost_fn n c (q, pv) r p).1
        (relax1 cost_fn n c (q, pv) r p).2 P ∧
      (∀ y ∈ (relax1 cost_fn n c (q, pv) r p).1, c ≤ y.2) ∧
      entryLE cost_fn (relax1 cost_fn n c (q, pv) r p).2 c (r, p) := by
  have hbase := KInv_relax1 hG.base cost_fn n c r p hp hPc hqc
  have halt : c ≤ c + cost_fn p := le_add_of_nonneg_right hp
  rcases relax1_split cost_fn n c q pv r p with ⟨heq, e0, he0, hge⟩ | ⟨heq, hcond⟩
  · rw [heq] at hbase ⊢
    refine ⟨⟨hbase.1, hG.nonnegQ, hG.sound, hG.sEntry, hG.sIn, hG.pvIn, hG.predP,
      hG.bchain, hG.qsub, hG.psub, hG.popt⟩, hbase.2, ?_⟩
    exact ⟨e0.1, e0.2.1, e0.2.2, by simpa using he0, le_of_not_lt hge⟩
  · have hrP : r ∉ P.map Prod.fst := by
      intro hmem
      obtain ⟨x, hx, hx1⟩ := List.mem_map.1 hmem
      obtain ⟨x1, x2⟩ := x
      simp only at hx1
      rw [hx1] at hx
      obtain ⟨pr, pl, hlook⟩ := hG.base.psync r x2 hx
      rcases hcond with hnone | ⟨e0, hsome, hlt⟩
      · rw [hlook] at hnone
        exact Option.noConfusion hnone
      · rw [hlook] at hsome
        have he : e0 = (pr, x2, pl) := by
          injection hsome with h2
          exact h2.symm
        rw [he] at hlt
        simp only at hlt
        exact absurd hlt (not_lt_of_le ((hPc (r, x2) hx).trans halt))
    have hrs : ¬ r = s := by
      intro hrs
      subst hrs
      rcases hcond with hnone | ⟨e0, hsome, hlt⟩
      · rw [hG.sEntry] at hnone
        exact Option.noConfusion hnone
      · rw [hG.sEntry] at hsome
        have he : e0 = (none, 0, none) := by
          injection hsome with h2
          exact h2.symm
        rw [he] at hlt
        simp only at hlt
        exact absurd hlt (not_lt_of_le (hc0.trans halt))
    rw [heq] at hbase ⊢
    refine ⟨⟨hbase.1, ?_, ?_, ?_, ?_, ?_, ?_, ?_, ?_, hG.psub, hG.popt⟩, hbase.2, ?_⟩
    · intro y hy
      rcases mem_setA_weak hy with hy2 | hy2
      · exact hG.nonnegQ y hy2
      · rw [hy2]
        exact hc0.trans halt
    · intro z pr cz pl hlook
      by_cases hz : r = z
      · subst hz
        rw [lookupA_setA_self pv r _] at hlook
        obtain ⟨h1, h2, h3⟩ : some n = pr ∧ c + cost_fn p = cz ∧ some p = pl := by
          injection hlook with h4
          exact ⟨congrArg Prod.fst h4, congrArg (fun t => t.2.1) h4,
            congrArg (fun t => t.2.2) h4⟩
        obtain ⟨prn, pln, hlookn⟩ := hG.base.psync n c hnP
        obtain ⟨w, hw, hwc⟩ := hG.sound n prn c pln hlookn
        refine ⟨w ++ [(n, r, p)], walk_snoc hw hedge, ?_⟩
        rw [wcost_append, hwc, ← h2]
        simp [wcost]
      · rw [lookupA_setA_ne pv r _ z hz] at hlook
        exact hG.sound z pr cz pl hlook
    · rw [lookupA_setA_ne pv r _ s hrs]
      exact hG.sEntry
    · rcases hG.sIn with hs | hs
      · refine Or.inl ?_
        rw [← lookupA_isSome_iff] at hs ⊢
        obtain ⟨cs, hcs⟩ := Option.isSome_iff_exists.1 hs
        rw [lookupA_setA]
        by_cases hhh : r = s
        · simp [hhh]
        · simp [hhh, hcs]
      · exact Or.inr hs
    · intro z hz
      by_cases hzr : z = r
      · subst hzr
        refine Or.inr ?_
        rw [← lookupA_isSome_iff, lookupA_setA]
        simp
      · rw [lookupA_setA_ne pv r _ z (fun hh => hzr hh.symm)] at hz
        rcases hG.pvIn z hz with h2 | h2
        · exact Or.inl h2
        · refine Or.inr ?_
          rw [← lookupA_isSome_iff] at h2 ⊢
          obtain ⟨cz, hcz⟩ := Option.isSome_iff_exists.1 h2
          rw [lookupA_setA]
          by_cases hhh : r = z
          · simp [hhh]
          · simp [hhh, hcz]
    · intro z pr cz pl hlook
      by_cases hz : r = z
      · subst hz
        rw [lookupA_setA_self pv r _] at hlook
        obtain ⟨h1, h3⟩ : some n = pr ∧ some p = pl := by
          injection hlook with h4
          exact ⟨congrArg Prod.fst h4, congrArg (fun t => t.2.2) h4⟩
        exact Or.inr ⟨n, p, h1.symm, h3.symm, List.mem_map_of_mem Prod.fst hnP⟩
      · rw [lookupA_setA_ne pv r _ z hz] at hlook
        exact hG.predP z pr cz pl hlook
    · intro x hx
      refine BChain_stable (hG.bchain x hx) (List.mem_map_of_mem Prod.fst hx) ?_
      intro m hm
      exact lookupA_setA_ne pv r _ m (fun hh => hrP (hh ▸ hm))
    · intro m hm
      rcases (mem_keys_setA q r _ m).1 hm with hm2 | hm2
      · exact hG.qsub m hm2
      · rw [hm2]
        exact List.mem_cons_of_mem s (target_of_edge hedge)
    · exact ⟨some n, c + cost_fn p, some p, lookupA_setA_self pv r _, le_refl _⟩

end DijkstraSrc

namespace DijkstraSrc

variable {R : Type} [LinearOrderedAddCommMonoid R] {α β : Type}

theorem cross_base {g : Graph α} {cost_fn : α → R} {s : Node} {q : Queue R}
    {pv : Prev R α} {P : List (Node × R)} (hG : GBase g cost_fn s q pv P) :
    (∃ cz, (s, cz) ∈ P ∧ cz ≤ (0 : R)) ∨ (∃ y ∈ q, y.2 ≤ (0 : R)) := by
  rcases hG.sIn with hs | hs
  · obtain ⟨x, hx, hx1⟩ := List.mem_map.1 hs
    obtain ⟨x1, x2⟩ := x
    simp only at hx1
    rw [hx1] at hx
    obtain ⟨pr, pl, hlook⟩ := hG.base.qsync s x2 hx
    have hx2 : x2 = 0 := by
      have h2 := hlook.symm.trans hG.sEntry
      exact congrArg (fun t : PrevEntry R α => t.2.1) (Option.some.inj h2)
    exact Or.inr ⟨(s, x2), hx, le_of_eq hx2⟩
  · obtain ⟨x, hx, hx1⟩ := List.mem_map.1 hs
    obtain ⟨x1, x2⟩ := x
    simp only at hx1
    rw [hx1] at hx
    obtain ⟨pr, pl, hlook⟩ := hG.base.psync s x2 hx
    have hx2 : x2 = 0 := by
      have h2 := hlook.symm.trans hG.sEntry
      exact congrArg (fun t : PrevEntry R α => t.2.1) (Option.some.inj h2)
    exact Or.inl ⟨x2, hx, le_of_eq hx2⟩

/-- The frontier-cut property: every walk from the source either ends in an
already-settled node whose recorded cost beats the walk, or crosses the
frontier at a queued node whose priority is at most the walk's cost. -/
theorem cross {g : Graph α} {cost_fn : α → R} {s : Node} {q : Queue R}
    {pv : Prev R α} {P : List (Node × R)} (hnn : NonnegCost g cost_fn)
    (hG : GBase g cost_fn s q pv P) (hrel : RelaxedAll g cost_fn pv P) :
    ∀ (N : ℕ) (w : List (Node × Node × α)) (z : Node), w.length ≤ N →
      Walk g s z w →
      (∃ cz, (z, cz) ∈ P ∧ cz ≤ wcost cost_fn w) ∨
        (∃ y ∈ q, y.2 ≤ wcost cost_fn w) := by
  intro N
  induction N with
  | zero =>
    intro w z hlen hw
    have hw0 : w = [] := List.length_eq_zero.1 (Nat.le_zero.1 hlen)
    subst hw0
    cases hw
    simpa [wcost] using cross_base hG
  | succ N2 ih =>
    intro w z hlen hw
    rcases walk_snoc_cases hw with ⟨rfl, rfl⟩ | ⟨w0, y, p, rfl, hw0, hedge⟩
    · simpa [wcost] using cross_base hG
    · have hlen0 : w0.length ≤ N2 := by
        rw [List.length_append] at hlen
        simpa using Nat.le_of_succ_le_succ (by simpa using hlen)
      have hp : 0 ≤ cost_fn p := nonneg_of_edge hnn hedge
      have hwc : wcost cost_fn (w0 ++ [(y, z, p)]) = wcost cost_fn w0 + cost_fn p := by
        rw [wcost_append]
        simp [wcost]
      rcases ih w0 y hlen0 hw0 with ⟨cy, hyP, hcy⟩ | ⟨y2, hy2q, hle⟩
      · obtain ⟨pr, cr, pl, hlook, hcr⟩ := hrel (y, cy) hyP (z, p) hedge
        have hisSome : (lookupA pv z).isSome := by
          rw [hlook]
          rfl
        have hbound : cr ≤ wcost cost_fn (w0 ++ [(y, z, p)]) := by
          rw [hwc]
          exact hcr.trans (add_le_add_right hcy _)
        rcases hG.pvIn z hisSome with hz | hz
        · obtain ⟨x, hx, hx1⟩ := List.mem_map.1 hz
          obtain ⟨x1, x2⟩ := x
          simp only at hx1
          rw [hx1] at hx
          obtain ⟨pr2, pl2, hlook2⟩ := hG.base.psync z x2 hx
          have hx2 : x2 = cr := by
            have h2 := hlook2.symm.trans hlook
            exact congrArg (fun t : PrevEntry R α => t.2.1) (Option.some.inj h2)
          exact Or.inl ⟨x2, hx, hx2 ▸ hbound⟩
        · obtain ⟨x, hx, hx1⟩ := List.mem_map.1 hz
          obtain ⟨x1, x2⟩ := x
          simp only at hx1
          rw [hx1] at hx
          obtain ⟨pr2, pl2, hlook2⟩ := hG.base.qsync z x2 hx
          have hx2 : x2 = cr := by
            have h2 := hlook2.symm.trans hlook
            exact congrArg (fun t : PrevEntry R α => t.2.1) (Option.some.inj h2)
          refine Or.inr ⟨(z, x2), hx, ?_⟩
          simpa [hx2] using hbound
      · refine Or.inr ⟨y2, hy2q, ?_⟩
        rw [hwc]
        exact hle.trans (le_add_of_nonneg_right hp)

/-- At a pop, the popped cost is a lower bound on the cost of every walk from
the source to the popped node: the heart of Dijkstra optimality. -/
theorem pop_lower_bound {g : Graph α} {cost_fn : α → R} {s : Node} {q : Queue R}
    {pv : Prev R α} {P : List (Node × R)} (hnn : NonnegCost g cost_fn)
    (hG : GBase g cost_fn s q pv P) (hrel : RelaxedAll g cost_fn pv P)
    {n : Node} {c : R} (hq : qmin q = some (n, c)) :
    ∀ w, Walk g s n w → c ≤ wcost cost_fn w := by
  intro w hw
  rcases cross hnn hG hrel w.length w n (le_refl _) hw with
    ⟨cz, hzP, hle⟩ | ⟨y, hyq, hle⟩
  · exact absurd (List.mem_map_of_mem Prod.fst (qmin_mem hq))
      (hG.base.pnotq n cz hzP)
  · exact (qmin_le hq y hyq).trans hle

end DijkstraSrc

namespace DijkstraSrc

variable {R : Type} [LinearOrderedAddCommMonoid R] {α β : Type}

theorem GBase_pop {g : Graph α} {cost_fn : α → R} {s : Node} {q : Queue R}
    {pv : Prev R α} {P : List (Node × R)} (hnn : NonnegCost g cost_fn)
    (hG : GBase g cost_fn s q pv P) (hrel : RelaxedAll g cost_fn pv P)
    {n : Node} {c : R} (hq : qmin q = some (n, c)) :
    GBase g cost_fn s (qerase q n) pv (P ++ [(n, c)]) ∧ (0 ≤ c) := by
  obtain ⟨hmid, hqc, hPc⟩ := KInv_pop hG.base hq
  have hmemq : (n, c) ∈ q := qmin_mem hq
  have hc0 : 0 ≤ c := hG.nonnegQ (n, c) hmemq
  have hkeys1 : ∀ m ∈ P.map Prod.fst, m ∈ (P ++ [(n, c)]).map Prod.fst := by
    intro m hm
    simp only [List.map_append, List.mem_append]
    exact Or.inl hm
  refine ⟨⟨hmid, ?_, hG.sound, hG.sEntry, ?_, ?_, ?_, ?_, ?_, ?_, ?_⟩, hc0⟩
  · intro y hy
    exact hG.nonnegQ y (mem_of_mem_qerase hy)
  · rcases hG.sIn with hs | hs
    · obtain ⟨x, hx, hx1⟩ := List.mem_map.1 hs
      obtain ⟨x1, x2⟩ := x
      simp only at hx1
      rw [hx1] at hx
      by_cases hsn : s = n
      · refine Or.inr ?_
        simp [hsn]
      · refine Or.inl ?_
        exact List.mem_map_of_mem Prod.fst (mem_qerase_of_ne hx hsn)
    · refine Or.inr (hkeys1 s hs)
  · intro z hz
    rcases hG.pvIn z hz with h2 | h2
    · exact Or.inl (hkeys1 z h2)
    · obtain ⟨x, hx, hx1⟩ := List.mem_map.1 h2
      obtain ⟨x1, x2⟩ := x
      simp only at hx1
      rw [hx1] at hx
      by_cases hzn : z = n
      · refine Or.inl ?_
        simp [hzn]
      · exact Or.inr (List.mem_map_of_mem Prod.fst (mem_qerase_of_ne hx hzn))
  · intro z pr cz pl hlook
    rcases hG.predP z pr cz pl hlook with h2 | ⟨m, p2, h1, h2, h3⟩
    · exact Or.inl h2
    · exact Or.inr ⟨m, p2, h1, h2, hkeys1 m h3⟩
  · intro x hx
    rcases (by simpa using hx : x ∈ P ∨ x = (n, c)) with hx2 | rfl
    · refine BChain_mono_k (BChain_mono_S (hG.bchain x hx2) hkeys1) ?_
      simp
    · obtain ⟨pr, pl, hlook⟩ := hG.base.qsync n c hmemq
      rcases hG.predP n pr c pl hlook with ⟨h1, h2⟩ | ⟨m, p2, h1, h2, h3⟩
      · rw [h1] at hlook
        exact BChain.sent hlook
      · obtain ⟨x, hxm, hx1⟩ := List.mem_map.1 h3
        obtain ⟨x1, x2⟩ := x
        simp only at hx1
        rw [hx1] at hxm
        have hcm := BChain_mono_S (hG.bchain (m, x2) hxm) hkeys1
        rw [h1, h2] at hlook
        have hmmem : m ∈ (P ++ [(n, c)]).map Prod.fst :=
          hkeys1 m (List.mem_map_of_mem Prod.fst hxm)
        have hstep := BChain.step hlook hmmem hcm
        have hlen : (P ++ [(n, c)]).length = P.length + 1 := by simp
        rw [hlen]
        exact hstep
  · intro m hm
    exact hG.qsub m (List.map_subset Prod.fst (fun x hx => mem_of_mem_qerase hx) hm)
  · intro m hm
    simp only [List.map_append, List.mem_append] at hm
    rcases hm with hm | hm
    · exact hG.psub m hm
    · rcases (by simpa using hm : m = n) with rfl
      exact hG.qsub m (List.mem_map_of_mem Prod.fst hmemq)
  · intro x hx
    rcases (by simpa using hx : x ∈ P ∨ x = (n, c)) with hx2 | rfl
    · exact hG.popt x hx2
    · exact fun w hw => pop_lower_bound hnn hG hrel hq w hw

theorem GBase_relaxList {g : Graph α} {cost_fn : α → R} {s : Node}
    {P : List (Node × R)} {n : Node} {c : R} (hnP : (n, c) ∈ P) (hc0 : 0 ≤ c) :
    ∀ (es : List (Node × α)) (q : Queue R) (pv : Prev R α),
      GBase g cost_fn s q pv P →
      (∀ rp ∈ es, rp ∈ graphGet g n) →
      (∀ rp ∈ es, 0 ≤ cost_fn rp.2) →
      (∀ x ∈ P, x.2 ≤ c) → (∀ y ∈ q, c ≤ y.2) →
      GBase g cost_fn s (relaxList cost_fn n c es (q, pv)).1
          (relaxList cost_fn n c es (q, pv)).2 P ∧
        (∀ rp ∈ es, entryLE cost_fn (relaxList cost_fn n c es (q, pv)).2 c rp) ∧
        (∀ z pr cz pl, lookupA pv z = some (pr, cz, pl) →
          ∃ pr2 cz2 pl2,
            lookupA (relaxList cost_fn n c es (q, pv)).2 z = some (pr2, cz2, pl2) ∧
              cz2 ≤ cz) := by
  intro es
  induction es with
  | nil =>
    intro q pv hG hsub hpos hPc hqc
    refine ⟨hG, by simp, ?_⟩
    intro z pr cz pl hlook
    exact ⟨pr, cz, pl, hlook, le_refl cz⟩
  | cons hd t ih =>
    intro q pv hG hsub hpos hPc hqc
    obtain ⟨r, p⟩ := hd
    have hedge : EdgeIn g n r p := hsub (r, p) (List.mem_cons_self _ _)
    have hp : 0 ≤ cost_fn p := hpos (r, p) (List.mem_cons_self _ _)
    obtain ⟨hG1, hqc1, hLE1⟩ := GBase_relax1 hG hnP hedge hp hPc hqc hc0
    rw [show relaxList cost_fn n c ((r, p) :: t) (q, pv) =
      relaxList cost_fn n c t (relax1 cost_fn n c (q, pv) r p) from rfl]
    have hrec := ih (relax1 cost_fn n c (q, pv) r p).1
      (relax1 cost_fn n c (q, pv) r p).2 (by simpa using hG1)
      (fun rp hrp => hsub rp (List.mem_cons_of_mem _ hrp))
      (fun rp hrp => hpos rp (List.mem_cons_of_mem _ hrp)) hPc (by simpa using hqc1)
    obtain ⟨hG2, hLE2, hmono2⟩ := hrec
    refine ⟨by simpa using hG2, ?_, ?_⟩
    · intro rp hrp
      rcases (by simpa using hrp : rp = (r, p) ∨ rp ∈ t) with rfl | hrp2
      · obtain ⟨pr, cr, pl, hlook, hcr⟩ := hLE1
        obtain ⟨pr2, cr2, pl2, hlook2, hcr2⟩ := hmono2 _ pr cr pl hlook
        exact ⟨pr2, cr2, pl2, by simpa using hlook2, hcr2.trans hcr⟩
      · simpa using hLE2 rp hrp2
    · intro z pr cz pl hlook
      obtain ⟨pr1, cz1, pl1, hlook1, hle1⟩ :=
        relax1_lookup_mono cost_fn n c q pv r p hlook
      obtain ⟨pr2, cz2, pl2, hlook2, hle2⟩ := hmono2 z pr1 cz1 pl1 hlook1
      exact ⟨pr2, cz2, pl2, by simpa using hlook2, hle2.trans hle1⟩

theorem GBase_step {g : Graph α} {cost_fn : α → R} {s : Node} {q : Queue R}
    {pv : Prev R α} {P : List (Node × R)} (hnn : NonnegCost g cost_fn)
    (hG : GBase g cost_fn s q pv P) (hrel : RelaxedAll g cost_fn pv P)
    {n : Node} {c : R} (hq : qmin q = some (n, c)) :
    GBase g cost_fn s (expand g cost_fn n c (qerase q n) pv).1
        (expand g cost_fn n c (qerase q n) pv).2 (P ++ [(n, c)]) ∧
      RelaxedAll g cost_fn (expand g cost_fn n c (qerase q n) pv).2 (P ++ [(n, c)]) ∧
      (∃ w, Walk g s n w ∧ wcost cost_fn w = c) ∧
      (∀ w, Walk g s n w → c ≤ wcost cost_fn w) := by
  obtain ⟨hGmid, hc0⟩ := GBase_pop hnn hG hrel hq
  obtain ⟨hmid0, hqc, hPc⟩ := KInv_pop hG.base hq
  have hsound : ∃ w, Walk g s n w ∧ wcost cost_fn w = c := by
    obtain ⟨pr, pl, hlook⟩ := hG.base.qsync n c (qmin_mem hq)
    exact hG.sound n pr c pl hlook
  have hlow := pop_lower_bound hnn hG hrel hq
  have hnP : (n, c) ∈ P ++ [(n, c)] := by simp
  have hrec := GBase_relaxList hnP hc0 (graphGet g n) (qerase q n) pv hGmid
    (fun rp hrp => hrp) (NonnegCost_graphGet hnn n) hPc hqc
  obtain ⟨hG2, hLE2, hmono2⟩ := hrec
  refine ⟨hG2, ?_, hsound, hlow⟩
  intro x hx rp hrp
  rcases (by simpa using hx : x ∈ P ∨ x = (n, c)) with hx2 | rfl
  · obtain ⟨pr, cr, pl, hlook, hcr⟩ := hrel x hx2 rp hrp
    obtain ⟨pr2, cr2, pl2, hlook2, hcr2⟩ := hmono2 _ pr cr pl hlook
    exact ⟨pr2, cr2, pl2, hlook2, hcr2.trans hcr⟩
  · exact hLE2 rp hrp

theorem GBase_init (g : Graph α) (cost_fn : α → R) (s : Node) :
    GBase g cost_fn s [(s, (0 : R))] (setA ([] : Prev R α) s (none, 0, none)) [] := by
  have hlook : ∀ n, lookupA (setA ([] : Prev R α) s (none, 0, none)) n =
      if s = n then some (none, 0, none) else none := by
    intro n
    rw [lookupA_setA]
    rfl
  refine ⟨KInv_init s [], by simp, ?_, ?_, by simp, ?_, ?_, by simp, by simp, by simp, by simp⟩
  · intro n pr cn pl h
    rw [hlook n] at h
    by_cases hs : s = n
    · rw [if_pos hs] at h
      have h2 := Option.some.inj h
      refine ⟨[], hs ▸ Walk.nil s, ?_⟩
      rw [wcost_nil]
      exact congrArg (fun t : PrevEntry R α => t.2.1) h2
    · rw [if_neg hs] at h
      exact Option.noConfusion h
  · exact lookupA_setA_self _ _ _
  · intro n h
    rw [hlook n] at h
    by_cases hs : s = n
    · refine Or.inr ?_
      simp [hs]
    · rw [if_neg hs] at h
      simp at h
  · intro n pr cn pl h
    rw [hlook n] at h
    by_cases hs : s = n
    · rw [if_pos hs] at h
      have h2 := Option.some.inj h
      exact Or.inl ⟨(congrArg Prod.fst h2).symm, hs.symm⟩
    · rw [if_neg hs] at h
      exact Option.noConfusion h

end DijkstraSrc

namespace DijkstraSrc

variable {R : Type} [LinearOrderedAddCommMonoid R] {α β : Type}

/-- Eager presentation of the `dijkstra` driver loop. -/
def dloopE (g : Graph α) (cost_fn : α → R) (goal : Node) :
    ℕ → Queue R → Prev R α → Option (Option (R × Prev R α))
  | 0, _, _ => none
  | fuel + 1, q, pv =>
    match qmin q with
    | none => some none
    | some (n, c) =>
      if n = goal then some (some (c, pv))
      else dloopE g cost_fn goal fuel (expand g cost_fn n c (qerase q n) pv).1
        (expand g cost_fn n c (qerase q n) pv).2

theorem dijkstraLoop_eq_dloopE (g : Graph α) (cost_fn : α → R) (goal : Node) :
    ∀ (fuel : ℕ) (st : Gen R α),
      dijkstraLoop g cost_fn goal fuel st =
        dloopE g cost_fn goal fuel (resolve g cost_fn st).1 (resolve g cost_fn st).2 := by
  intro fuel
  induction fuel with
  | zero => intro st; rfl
  | succ f ih =>
    intro st
    rw [show dijkstraLoop g cost_fn goal (f + 1) st =
      (match kernelStep g cost_fn st with
        | none => some none
        | some ((n, c), st1) =>
          if n = goal then some (some (c, st1.prev))
          else dijkstraLoop g cost_fn goal f st1) from rfl]
    rw [show dloopE g cost_fn goal (f + 1) (resolve g cost_fn st).1
        (resolve g cost_fn st).2 =
      (match qmin (resolve g cost_fn st).1 with
        | none => some none
        | some (n, c) =>
          if n = goal then some (some (c, (resolve g cost_fn st).2))
          else dloopE g cost_fn goal f
            (expand g cost_fn n c (qerase (resolve g cost_fn st).1 n)
              (resolve g cost_fn st).2).1
            (expand g cost_fn n c (qerase (resolve g cost_fn st).1 n)
              (resolve g cost_fn st).2).2) from rfl]
    unfold kernelStep
    cases hq : qmin (resolve g cost_fn st).1 with
    | none => simp only [hq]
    | some nc =>
      obtain ⟨n, c⟩ := nc
      simp only [hq]
      by_cases hng : n = goal
      · simp [hng]
      · simp only [hng, if_neg, not_false_iff]
        rw [ih ⟨qerase (resolve g cost_fn st).1 n, (resolve g cost_fn st).2, some (n, c)⟩]
        rfl

theorem GBase_length_le {g : Graph α} {cost_fn : α → R} {s : Node} {q : Queue R}
    {pv : Prev R α} {P : List (Node × R)} (hG : GBase g cost_fn s q pv P) :
    P.length ≤ 1 + totalEdges g := by
  have h1 : (P.map Prod.fst).length ≤ (s :: targets g).length :=
    nodup_sub_length hG.base.pnodup hG.psub
  simp [length_targets] at h1
  omega

/-- Main correctness run of the `dijkstra` loop: with the invariants in hand
and enough fuel, the loop either pops the goal — at its exact shortest-walk
cost, with a reconstructable backtrack chain — or exhausts the frontier, in
which case the goal is unreachable. -/
theorem dloopE_main (g : Graph α) (cost_fn : α → R) (s goal : Node)
    (hnn : NonnegCost g cost_fn) :
    ∀ (fuel : ℕ) (q : Queue R) (pv : Prev R α) (P : List (Node × R)),
      GBase g cost_fn s q pv P → RelaxedAll g cost_fn pv P →
      (∀ cg : R, (goal, cg) ∉ P) →
      totalEdges g + 2 ≤ P.length + fuel →
      (∃ c pvf, dloopE g cost_fn goal fuel q pv = some (some (c, pvf)) ∧
        (∃ w, Walk g s goal w ∧ wcost cost_fn w = c) ∧
        (∀ w, Walk g s goal w → c ≤ wcost cost_fn w) ∧
        (∃ hops, ∀ f, totalEdges g + 1 < f → backtrack pvf f goal = some hops)) ∨
      (dloopE g cost_fn goal fuel q pv = some none ∧ ¬ Reachable g s goal) := by
  intro fuel
  induction fuel with
  | zero =>
    intro q pv P hG hrel hgoal hbound
    have hlen := GBase_length_le hG
    omega
  | succ f ih =>
    intro q pv P hG hrel hgoal hbound
    rw [show dloopE g cost_fn goal (f + 1) q pv =
      (match qmin q with
        | none => some none
        | some (n, c) =>
          if n = goal then some (some (c, pv))
          else dloopE g cost_fn goal f (expand g cost_fn n c (qerase q n) pv).1
            (expand g cost_fn n c (qerase q n) pv).2) from rfl]
    cases hq : qmin q with
    | none =>
      refine Or.inr ⟨rfl, ?_⟩
      rintro ⟨w, hw⟩
      rcases cross hnn hG hrel w.length w goal (le_refl _) hw with
        ⟨cz, hzP, hle⟩ | ⟨y, hyq, hle⟩
      · exact hgoal cz hzP
      · rw [(qmin_eq_none_iff q).1 hq] at hyq
        simp at hyq
    | some nc =>
      obtain ⟨n, c⟩ := nc
      by_cases hng : n = goal
      · subst hng
        simp only [if_pos rfl]
        refine Or.inl ⟨c, pv, rfl, ?_, pop_lower_bound hnn hG hrel hq, ?_⟩
        · obtain ⟨pr, pl, hlook⟩ := hG.base.qsync n c (qmin_mem hq)
          exact hG.sound n pr c pl hlook
        · have hnotP : n ∉ P.map Prod.fst := by
            intro hmem
            obtain ⟨x, hx, hx1⟩ := List.mem_map.1 hmem
            obtain ⟨x1, x2⟩ := x
            simp only at hx1
            rw [hx1] at hx
            exact hgoal x2 hx
          have hnq : n ∈ q.map Prod.fst := List.mem_map_of_mem Prod.fst (qmin_mem hq)
          have hlenP : P.length + 1 ≤ 1 + totalEdges g := by
            have hnd : ((P.map Prod.fst) ++ [n]).Nodup := by
              rw [List.nodup_append]
              refine ⟨hG.base.pnodup, by simp, ?_⟩
              intro a ha hna
              simp only [List.mem_singleton] at hna
              exact hnotP (hna ▸ ha)
            have hsub : ∀ m ∈ (P.map Prod.fst) ++ [n], m ∈ s :: targets g := by
              intro m hm
              rcases List.mem_append.1 hm with hm2 | hm2
              · exact hG.psub m hm2
              · rcases (by simpa using hm2 : m = n) with rfl
                exact hG.qsub m hnq
            have := nodup_sub_length hnd hsub
            simp [length_targets] at this
            omega
          obtain ⟨pr, pl, hlook⟩ := hG.base.qsync n c (qmin_mem hq)
          rcases hG.predP n pr c pl hlook with ⟨h1, h2⟩ | ⟨m, p2, h1, h2, h3⟩
          · rw [h1] at hlook
            obtain ⟨hops, hh⟩ := backtrack_of_BChain
              (show BChain pv (P.map Prod.fst) 0 n from BChain.sent hlook)
            exact ⟨hops, fun fl hfl => hh fl (by omega)⟩
          · obtain ⟨x, hxm, hx1⟩ := List.mem_map.1 h3
            obtain ⟨x1, x2⟩ := x
            simp only at hx1
            rw [hx1] at hxm
            rw [h1, h2] at hlook
            have hchain := BChain.step hlook h3 (hG.bchain (m, x2) hxm)
            obtain ⟨hops, hh⟩ := backtrack_of_BChain hchain
            exact ⟨hops, fun fl hfl => hh fl (by omega)⟩
      · simp only [hng, if_neg, not_false_iff]
        obtain ⟨hG2, hrel2, hsound2, hlow2⟩ := GBase_step hnn hG hrel hq
        have hgoal2 : ∀ cg : R, (goal, cg) ∉ P ++ [(n, c)] := by
          intro cg hmem
          rcases (by simpa using hmem : (goal, cg) ∈ P ∨ (goal = n ∧ cg = c)) with
            h2 | ⟨h2, h3⟩
          · exact hgoal cg h2
          · exact hng h2.symm
        have hbound2 : totalEdges g + 2 ≤ (P ++ [(n, c)]).length + f := by
          simp only [List.length_append, List.length_singleton]
          omega
        exact ih (expand g cost_fn n c (qerase q n) pv).1
          (expand g cost_fn n c (qerase q n) pv).2 (P ++ [(n, c)]) hG2 hrel2 hgoal2 hbound2

end DijkstraSrc

namespace DijkstraSrc

variable {R : Type} [LinearOrderedAddCommMonoid R] {α β : Type}

/-- C1: for every graph with non-negative edge costs and every pair of nodes
`(s, goal)` with `goal` reachable from `s`, the total cost returned by
`dijkstra` equals the minimum, over all walks (simple or not) from `s` to
`goal` in `g`, of the sum of `cost_fn` over the walk's edge payloads: the
returned cost is attained by some walk and is a lower bound on every walk's
cost.  `dfuel g` fuel (number of edge records plus two) always suffices. -/
theorem dijkstra_shortest_path_optimal (g : Graph α) (s goal : Node)
    (cost_fn : α → R) (fuel : ℕ) (hnn : NonnegCost g cost_fn)
    (hreach : Reachable g s goal) (hfuel : dfuel g ≤ fuel) :
    ∃ c es, dijkstra g s goal cost_fn fuel = some (some (c, es)) ∧
      (∃ w, Walk g s goal w ∧ wcost cost_fn w = c) ∧
      (∀ w, Walk g s goal w → c ≤ wcost cost_fn w) := by
  have hloop : dijkstraLoop g cost_fn goal fuel (ginit s ([] : Prev R α)) =
      dloopE g cost_fn goal fuel [(s, 0)] (setA ([] : Prev R α) s (none, 0, none)) :=
    dijkstraLoop_eq_dloopE g cost_fn goal fuel (ginit s [])
  have hmain := dloopE_main g cost_fn s goal hnn fuel [(s, 0)]
    (setA ([] : Prev R α) s (none, 0, none)) [] (GBase_init g cost_fn s)
    (fun x hx => absurd hx (List.not_mem_nil x)) (by simp)
    (by unfold dfuel at hfuel; omega)
  rcases hmain with ⟨c, pvf, heq, hsound, hlow, hops, hh⟩ | ⟨heq, hnr⟩
  · refine ⟨c, hops.reverse, ?_, hsound, hlow⟩
    unfold dijkstra
    rw [hloop, heq]
    have hb := hh fuel (by unfold dfuel at hfuel; omega)
    simp [hb]
  · exact absurd hreach hnr

/-- C1 witness: on the doctest graph `[(1,2,10),(2,3,15),(1,3,30)]`,
`dijkstra(g, 1, 3)` returns a cost that a walk attains and that no walk
beats (the run itself evaluates to cost 25). -/
theorem dijkstra_shortest_path_optimal_witness :
    ∃ c : ℤ, ∃ es,
      dijkstra (make_graph [(1, 2, (10 : ℤ)), (2, 3, 15), (1, 3, 30)] identity)
          1 3 identity 10 = some (some (c, es)) ∧
      (∃ w, Walk (make_graph [(1, 2, (10 : ℤ)), (2, 3, 15), (1, 3, 30)] identity)
          1 3 w ∧ wcost identity w = c) ∧
      (∀ w, Walk (make_graph [(1, 2, (10 : ℤ)), (2, 3, 15), (1, 3, 30)] identity)
          1 3 w → c ≤ wcost identity w) := by
  refine dijkstra_shortest_path_optimal _ 1 3 identity 10
    (by unfold NonnegCost; decide) ⟨[(1, 2, 10), (2, 3, 15)], ?_⟩ (by decide)
  refine Walk.cons (show EdgeIn _ 1 2 10 from by unfold EdgeIn; decide)
    (Walk.cons (show EdgeIn _ 2 3 15 from by unfold EdgeIn; decide) (Walk.nil 3))

end DijkstraSrc

namespace DijkstraSrc

variable {R : Type} [LinearOrderedAddCommMonoid R] {α β : Type}

theorem keys_nodup_addEdge (g : Graph α) (l r : Node) (p : α)
    (h : (g.map Prod.fst).Nodup) : ((addEdge g l r p).map Prod.fst).Nodup :=
  keys_nodup_setA g l _ h

theorem keys_nodup_revEdges (l : Node) (es : List (Node × α)) (acc : Graph α)
    (h : (acc.map Prod.fst).Nodup) : ((revEdges l es acc).map Prod.fst).Nodup := by
  induction es generalizing acc with
  | nil => exact h
  | cons hd t ih =>
    obtain ⟨r, p⟩ := hd
    exact ih (addEdge acc r l p) (keys_nodup_addEdge acc r l p h)

theorem keys_nodup_revGraphAux (g acc : Graph α)
    (h : (acc.map Prod.fst).Nodup) : ((revGraphAux g acc).map Prod.fst).Nodup := by
  induction g generalizing acc with
  | nil => exact h
  | cons hd t ih =>
    obtain ⟨l, es⟩ := hd
    exact ih (revEdges l es acc) (keys_nodup_revEdges l es acc h)

theorem keys_nodup_reverse_graph (g : Graph α) :
    ((reverse_graph g).map Prod.fst).Nodup :=
  keys_nodup_revGraphAux g [] (by simp)

theorem mem_edgeMS_reverse {g : Graph α} {a b : Node} {p : α} :
    (a, b, p) ∈ edgeList (reverse_graph g) ↔ (b, a, p) ∈ edgeList g := by
  have h1 : ((a, b, p) ∈ edgeMS (reverse_graph g)) ↔ (a, b, p) ∈ edgeList (reverse_graph g) :=
    Multiset.mem_coe
  have h2 : ((b, a, p) ∈ edgeMS g) ↔ (b, a, p) ∈ edgeList g := Multiset.mem_coe
  rw [← h1, ← h2, edgeMS_reverse_graph, Multiset.mem_map]
  constructor
  · rintro ⟨y, hy, hy2⟩
    obtain ⟨y1, y2, y3⟩ := y
    rcases (by simpa [swapE] using hy2 : y2 = a ∧ y1 = b ∧ y3 = p) with ⟨r1, r2, r3⟩
    rw [r1, r2, r3] at hy
    exact hy
  · intro h
    exact ⟨(b, a, p), h, rfl⟩

theorem NonnegCost_reverse {g : Graph α} {cost_fn : α → R}
    (hnn : NonnegCost g cost_fn) : NonnegCost (reverse_graph g) cost_fn := by
  intro le hle rp hrp
  obtain ⟨l, es⟩ := le
  obtain ⟨r, p⟩ := rp
  have hmem : (l, r, p) ∈ edgeList (reverse_graph g) := mem_edgeList.2 ⟨es, hle, hrp⟩
  have hmem2 : (r, l, p) ∈ edgeList g := mem_edgeMS_reverse.1 hmem
  obtain ⟨es2, hmem3, hrp2⟩ := mem_edgeList.1 hmem2
  exact hnn (r, es2) hmem3 (l, p) hrp2

theorem EdgeIn_reverse {g : Graph α} (hkeys : (g.map Prod.fst).Nodup)
    {a b : Node} {p : α} (h : EdgeIn (reverse_graph g) a b p) : EdgeIn g b a p :=
  mem_edgeList_EdgeIn hkeys (mem_edgeMS_reverse.1 (EdgeIn_mem_edgeList h))

theorem reverse_walk_reachable {g : Graph α} (hkeys : (g.map Prod.fst).Nodup)
    {x y : Node} {w : List (Node × Node × α)}
    (hw : Walk (reverse_graph g) x y w) : Reachable g y x := by
  induction hw with
  | nil n => exact ⟨[], Walk.nil n⟩
  | cons he hw2 ih =>
    rename_i a b c p w2
    obtain ⟨w3, hw3⟩ := ih
    exact ⟨w3 ++ [(b, a, p)], walk_snoc hw3 (EdgeIn_reverse hkeys he)⟩

theorem reachable_trans {g : Graph α} {a b c : Node}
    (h1 : Reachable g a b) (h2 : Reachable g b c) : Reachable g a c := by
  obtain ⟨w1, hw1⟩ := h1
  obtain ⟨w2, hw2⟩ := h2
  refine ⟨w1 ++ w2, ?_⟩
  induction hw1 with
  | nil n => exact hw2
  | cons he hw3 ih => exact Walk.cons he (ih hw2)

theorem kernelStep_eq_none {g : Graph α} {cost_fn : α → R} {st : Gen R α}
    (h : kernelStep g cost_fn st = none) : qmin (resolve g cost_fn st).1 = none := by
  cases hq : qmin (resolve g cost_fn st).1 with
  | none => rfl
  | some nc =>
    obtain ⟨n, c⟩ := nc
    simp [kernelStep, hq] at h

theorem kernelStep_eq_some {g : Graph α} {cost_fn : α → R} {st : Gen R α}
    {n : Node} {c : R} {st1 : Gen R α}
    (h : kernelStep g cost_fn st = some ((n, c), st1)) :
    qmin (resolve g cost_fn st).1 = some (n, c) ∧
      st1 = ⟨qerase (resolve g cost_fn st).1 n, (resolve g cost_fn st).2, some (n, c)⟩ := by
  cases hq : qmin (resolve g cost_fn st).1 with
  | none => simp [kernelStep, hq] at h
  | some nc =>
    obtain ⟨n2, c2⟩ := nc
    simp only [kernelStep, hq, Option.some.injEq, Prod.mk.injEq] at h
    obtain ⟨⟨h1, h2⟩, h3⟩ := h
    constructor
    · rw [h1, h2]
    · rw [← h3, h1, h2]

end DijkstraSrc

namespace DijkstraSrc

variable {R : Type} [LinearOrderedAddCommMonoid R] {α β : Type}

/-- Generator-level invariant: the resolved state of a kernel started by
`ginit s []` carries the full pack. -/
def GGen (g : Graph α) (cost_fn : α → R) (s : Node) (st : Gen R α)
    (P : List (Node × R)) : Prop :=
  GBase g cost_fn s (resolve g cost_fn st).1 (resolve g cost_fn st).2 P ∧
    RelaxedAll g cost_fn (resolve g cost_fn st).2 P

theorem GGen_init (g : Graph α) (cost_fn : α → R) (s : Node) :
    GGen g cost_fn s (ginit s []) [] := by
  constructor
  · exact GBase_init g cost_fn s
  · intro x hx
    exact absurd hx (List.not_mem_nil x)

theorem GGen_step {g : Graph α} {cost_fn : α → R} {s : Node} {st : Gen R α}
    {P : List (Node × R)} {n : Node} {c : R} {st1 : Gen R α}
    (hnn : NonnegCost g cost_fn) (hG : GGen g cost_fn s st P)
    (hst : kernelStep g cost_fn st = some ((n, c), st1)) :
    GGen g cost_fn s st1 (P ++ [(n, c)]) := by
  obtain ⟨hq, hst1⟩ := kernelStep_eq_some hst
  have h := GBase_step hnn hG.1 hG.2 hq
  rw [hst1]
  exact ⟨h.1, h.2.1⟩

/-- A node popped by a kernel has an entry in that kernel's table. -/
theorem popped_has_entry {g : Graph α} {cost_fn : α → R} {s : Node}
    {st : Gen R α} {P : List (Node × R)} {n : Node} {c : R} {st1 : Gen R α}
    (hG : GGen g cost_fn s st P)
    (hst : kernelStep g cost_fn st = some ((n, c), st1)) :
    ∃ w, Walk g s n w := by
  obtain ⟨hq, hst1⟩ := kernelStep_eq_some hst
  obtain ⟨pr, pl, hlook⟩ := hG.1.base.qsync n c (qmin_mem hq)
  obtain ⟨w, hw, _⟩ := hG.1.sound n pr c pl hlook
  exact ⟨w, hw⟩

theorem biLoop_unreachable (g : Graph α) (cost_fn : α → R) (s e : Node)
    (hnn : NonnegCost g cost_fn) (hkeys : (g.map Prod.fst).Nodup)
    (hnr : ¬ Reachable g s e) (btfuel : ℕ) :
    ∀ (fuel : ℕ) (fgen bgen : Gen R α) (Pf Pb : List (Node × R)),
      GGen g cost_fn s fgen Pf →
      GGen (reverse_graph g) cost_fn e bgen Pb →
      totalEdges g + 2 ≤ Pf.length + fuel →
      biLoop g (reverse_graph g) cost_fn btfuel fuel fgen bgen none none = some none := by
  have hnnr : NonnegCost (reverse_graph g) cost_fn := NonnegCost_reverse hnn
  intro fuel
  induction fuel with
  | zero =>
    intro fgen bgen Pf Pb hGf hGb hbound
    have := GBase_length_le hGf.1
    omega
  | succ f ih =>
    intro fgen bgen Pf Pb hGf hGb hbound
    cases hstf : kernelStep g cost_fn fgen with
    | none => simp [biLoop, hstf, biFinish]
    | some y =>
      obtain ⟨⟨nf, cf0⟩, fgen1⟩ := y
      cases hstb : kernelStep (reverse_graph g) cost_fn bgen with
      | none => simp [biLoop, hstf, hstb, biFinish]
      | some y2 =>
        obtain ⟨⟨nb, cb0⟩, bgen1⟩ := y2
        obtain ⟨hqf, hf1⟩ := kernelStep_eq_some hstf
        obtain ⟨hqb, hb1⟩ := kernelStep_eq_some hstb
        have hfprev : fgen1.prev = (resolve g cost_fn fgen).2 := by rw [hf1]
        have hbprev : bgen1.prev = (resolve (reverse_graph g) cost_fn bgen).2 := by
          rw [hb1]
        have hreach_f : ∀ n2 : Node,
            (lookupA (resolve g cost_fn fgen).2 n2).isSome → Reachable g s n2 := by
          intro n2 hsome
          obtain ⟨e2, he2⟩ := Option.isSome_iff_exists.1 hsome
          obtain ⟨pr, cr, pl⟩ := e2
          obtain ⟨w, hw, _⟩ := hGf.1.sound n2 pr cr pl he2
          exact ⟨w, hw⟩
        have hreach_b : ∀ n2 : Node,
            (lookupA (resolve (reverse_graph g) cost_fn bgen).2 n2).isSome →
              Reachable g n2 e := by
          intro n2 hsome
          obtain ⟨e2, he2⟩ := Option.isSome_iff_exists.1 hsome
          obtain ⟨pr, cr, pl⟩ := e2
          obtain ⟨w, hw, _⟩ := hGb.1.sound n2 pr cr pl he2
          exact reverse_walk_reachable hkeys hw
        have hnf_entry : (lookupA (resolve g cost_fn fgen).2 nf).isSome := by
          obtain ⟨pr, pl, hlook⟩ := hGf.1.base.qsync nf cf0 (qmin_mem hqf)
          rw [hlook]
          rfl
        have hnb_entry :
            (lookupA (resolve (reverse_graph g) cost_fn bgen).2 nb).isSome := by
          obtain ⟨pr, pl, hlook⟩ := hGb.1.base.qsync nb cb0 (qmin_mem hqb)
          rw [hlook]
          rfl
        have hchk1 : check_intersects fgen1.prev bgen1.prev bgen1.prev none nf =
            ((none : Option Node), (none : Option R)) := by
          have hnot : ¬ ((lookupA bgen1.prev nf).isSome = true) := by
            intro hsome
            rw [hbprev] at hsome
            exact hnr (reachable_trans (hreach_f nf hnf_entry) (hreach_b nf hsome))
          unfold check_intersects
          rw [if_neg hnot]
        have hchk2 : check_intersects fgen1.prev bgen1.prev fgen1.prev none nb =
            ((none : Option Node), (none : Option R)) := by
          have hnot : ¬ ((lookupA fgen1.prev nb).isSome = true) := by
            intro hsome
            rw [hfprev] at hsome
            exact hnr (reachable_trans (hreach_f nb hsome) (hreach_b nb hnb_entry))
          unfold check_intersects
          rw [if_neg hnot]
        have hGf1 : GGen g cost_fn s fgen1 (Pf ++ [(nf, cf0)]) :=
          GGen_step hnn hGf hstf
        have hGb1 : GGen (reverse_graph g) cost_fn e bgen1 (Pb ++ [(nb, cb0)]) :=
          GGen_step hnnr hGb hstb
        have hbound1 : totalEdges g + 2 ≤ (Pf ++ [(nf, cf0)]).length + f := by
          simp only [List.length_append, List.length_singleton]
          omega
        have hrec := ih fgen1 bgen1 (Pf ++ [(nf, cf0)]) (Pb ++ [(nb, cb0)])
          hGf1 hGb1 hbound1
        simp [biLoop, hstf, hstb, hchk1, hchk2, min3, cleb, hrec]

/-- C5: when the end node is unreachable from the start, `dijkstra` returns
the explicit absent result (inner `none`), not an error, and
`bidirect_dijkstra` likewise returns the absent result, because no candidate
meeting point is ever found (a candidate would need an entry in both search
tables, which would exhibit a walk from start to end).  The graph's keys
are assumed distinct, as they are for every Python dict value. -/
theorem unreachable_returns_absent (g : Graph α) (s e : Node) (cost_fn : α → R)
    (fuel : ℕ) (hnn : NonnegCost g cost_fn) (hkeys : (g.map Prod.fst).Nodup)
    (hnr : ¬ Reachable g s e) (hfuel : dfuel g ≤ fuel) :
    dijkstra g s e cost_fn fuel = some none ∧
      bidirect_dijkstra g s e cost_fn fuel = some none := by
  constructor
  · have hloop : dijkstraLoop g cost_fn e fuel (ginit s ([] : Prev R α)) =
        dloopE g cost_fn e fuel [(s, 0)] (setA ([] : Prev R α) s (none, 0, none)) :=
      dijkstraLoop_eq_dloopE g cost_fn e fuel (ginit s [])
    have hmain := dloopE_main g cost_fn s e hnn fuel [(s, 0)]
      (setA ([] : Prev R α) s (none, 0, none)) [] (GBase_init g cost_fn s)
      (fun x hx => absurd hx (List.not_mem_nil x)) (by simp)
      (by unfold dfuel at hfuel; omega)
    rcases hmain with ⟨c, pvf, heq, ⟨w, hw, _⟩, _, _⟩ | ⟨heq, hnr2⟩
    · exact absurd ⟨w, hw⟩ hnr
    · unfold dijkstra
      rw [hloop, heq]
  · unfold bidirect_dijkstra
    exact biLoop_unreachable g cost_fn s e hnn hkeys hnr fuel fuel
      (ginit s []) (ginit e []) [] [] (GGen_init g cost_fn s)
      (GGen_init (reverse_graph g) cost_fn e) (by unfold dfuel at hfuel; omega)

/-- C5 witness: `make_graph([(1, 2, 10)])` searched from 2 to 1 (no reverse
edge): both searches return the explicit absent result. -/
theorem unreachable_returns_absent_witness :
    dijkstra (make_graph [(1, 2, (10 : ℤ))] identity) 2 1 identity 10 = some none ∧
      bidirect_dijkstra (make_graph [(1, 2, (10 : ℤ))] identity) 2 1 identity 10 =
        some none := by
  refine unreachable_returns_absent _ 2 1 identity 10
    (by unfold NonnegCost; decide) (by decide) ?_ (by decide)
  rintro ⟨w, hw⟩
  cases hw with
  | cons he hw2 =>
    have hget : graphGet (make_graph [(1, 2, (10 : ℤ))] identity) 2 = [] := by decide
    rw [show EdgeIn (make_graph [(1, 2, (10 : ℤ))] identity) 2 _ _ =
      ((_, _) ∈ graphGet (make_graph [(1, 2, (10 : ℤ))] identity) 2) from rfl, hget] at he
    simp at he

end DijkstraSrc
